import Mathlib

/-!
Verification of the setting-group core of the `export_layers` GIMP plug-in
(`pygimplib/pgsettinggroup.py`): the hierarchical setting tree, path
resolution, pre-order walking, and the load/save persistence coordinator.

The Python code is shallowly embedded:
* a `Setting` leaf keeps exactly the fields the verified operations read
  (`name`, `tags`, `setting_sources`); presentation metadata
  (`display_name`, `description`) never influences these operations and is
  omitted;
* a `SettingGroup`'s `_settings` ordered dictionary is embedded as an
  association list `List (String × SNode)` in insertion order (a Python
  `OrderedDict` maps each key to one value; insertion of a fresh key
  appends, assignment to a present key updates in place);
* Python strings are handled as Lean strings; character-level operations
  (`str.split`, membership of the one-character path separator) are
  embedded over `String.toList`;
* raised exceptions become `Except` results; the distinction between
  `KeyError` (caught by `__contains__` and `__getitem__`) and `TypeError`
  (subscripting or membership-testing a leaf `Setting`, which propagates)
  is kept explicit.
-/

/-- Leaf configuration entry (`pgsetting.Setting`), restricted to the fields
read by `SettingGroup`: its `name`, its `tags` collection and its
`setting_sources` sequence of backing-store identifiers. -/
structure Setting where
  name : String
  tags : List String
  setting_sources : List String
deriving DecidableEq, Repr

/-- A node of the setting tree: either a leaf `Setting` or a `SettingGroup`
with its `name`, its `tags` and its ordered child dictionary `_settings`
(keys in insertion order). -/
inductive SNode where
  | setting (s : Setting)
  | group (name : String) (tags : List String) (children : List (String × SNode))
deriving Repr

/-- Name of a node (`Setting.name` or `SettingGroup.name`); `_add_setting`
keys the child dictionary by this name. -/
def nodeName : SNode → String
  | .setting s => s.name
  | .group n _ _ => n

/-- Tags of a node; both `Setting` and `SettingGroup` carry a `tags`
collection tested by the walk predicates. -/
def nodeTags : SNode → List String
  | .setting s => s.tags
  | .group _ tg _ => tg

/-- Lookup `self._settings[key]` as an `Option`: first (unique) entry with
the given key of the ordered child dictionary. -/
def lookupChild (cs : List (String × SNode)) (key : String) : Option SNode :=
  (cs.find? (fun kv => kv.1 = key)).map (fun kv => kv.2)

mutual

/-- Structural equality of nodes, embedding the `==` comparisons performed
by the source (`setting == self` in `_add_setting`; CPython falls back to
identity, and within one tree two structurally equal nodes at different
places do not arise in the checked claims). -/
def SNode.beq : SNode → SNode → Bool
  | .setting a, .setting b => a == b
  | .group n1 tg1 cs1, .group n2 tg2 cs2 =>
      n1 == n2 && tg1 == tg2 && SNode.beqChildren cs1 cs2
  | _, _ => false

/-- Structural equality of child dictionaries, part of `SNode.beq`. -/
def SNode.beqChildren : List (String × SNode) → List (String × SNode) → Bool
  | [], [] => true
  | (k1, v1) :: t1, (k2, v2) :: t2 =>
      k1 == k2 && SNode.beq v1 v2 && SNode.beqChildren t1 t2
  | _, _ => false

end

mutual

/-- Does `target` occur in the subtree rooted at the given node (the node
itself included)?  Used to state claims about self-containment. -/
def occursIn (target : SNode) : SNode → Bool
  | .setting s => SNode.beq (.setting s) target
  | .group n tg cs => SNode.beq (.group n tg cs) target || occursInChildren target cs

/-- Does `target` occur in the subtree of some child of the list? -/
def occursInChildren (target : SNode) : List (String × SNode) → Bool
  | [] => false
  | (_, c) :: rest => occursIn target c || occursInChildren target rest

end

/-!
Path resolution (`__getitem__`, `__contains__`, `_get_setting_from_path`).

`pgsettingutils.SETTING_PATH_SEPARATOR` is defined outside the provided
sources; modelled from the spec: the separator is the single character
forward slash (spec §3 "slash-separated path", and `add` documents that
names "must not contain forward slashes").
-/

/-- Membership test of the one-character path separator in a string, the
embedding of the Python test `SETTING_PATH_SEPARATOR in setting_name_or_path`. -/
def pathHasSep (p : String) : Bool := p.toList.contains '/'

/-- Splitting of a character list at every occurrence of a separator
character, the standard semantics of Python `str.split(sep)`: the result is
never empty, empty components are kept. -/
def splitOnChar (sep : Char) : List Char → List (List Char)
  | [] => [[]]
  | c :: rest =>
      if c = sep then [] :: splitOnChar sep rest
      else
        match splitOnChar sep rest with
        | h :: t => (c :: h) :: t
        | [] => [[c]]

/-- Embedding of `setting_path.split(SETTING_PATH_SEPARATOR)`. -/
def splitPath (p : String) : List String :=
  (splitOnChar '/' p.toList).map (fun l => String.mk l)

/-- Failure modes of lookup: `keyErr` embeds a raised `KeyError` (caught by
`__contains__`), `typeErr` embeds a raised `TypeError` (membership test or
subscript applied to a leaf `Setting` object, which no caller catches). -/
inductive LookupErr where
  | keyErr
  | typeErr
deriving DecidableEq, Repr

/-- Direct child access `self._settings[name]` (the no-separator branch of
`__getitem__`): `KeyError` when the name is absent, `TypeError` when the
receiver is a leaf `Setting` (not subscriptable). -/
def getChildE : SNode → String → Except LookupErr SNode
  | .setting _, _ => .error .typeErr
  | .group _ _ cs, key =>
      match lookupChild cs key with
      | some nd => .ok nd
      | none => .error .keyErr

/-- Embedding of the body of `_get_setting_from_path` applied to the split
component list: for every component except the last, test membership
(`if group_name in current_group`) and descend through `_settings`;
the last component goes through `current_group[...]`, whose `KeyError` is
re-raised as a `KeyError` (component strings of a split never contain the
separator — `splitOnChar_not_mem` below — so that `__getitem__` call takes
its direct-lookup branch, embedded by `getChildE`).  A membership test on a
leaf `Setting` raises `TypeError`. -/
def resolvePath : SNode → List String → Except LookupErr SNode
  | _, [] => .error .keyErr
  | cur, [last] => getChildE cur last
  | .setting _, _ :: _ :: _ => .error .typeErr
  | .group _ _ cs, seg :: rest =>
      match lookupChild cs seg with
      | some nxt => resolvePath nxt rest
      | none => .error .keyErr

/-- Embedding of `_get_setting_from_path`. -/
def getFromPath (nd : SNode) (p : String) : Except LookupErr SNode :=
  resolvePath nd (splitPath p)

/-- Embedding of `__getitem__`: paths containing the separator go through
`_get_setting_from_path`, bare names through the child dictionary. -/
def getItemE (nd : SNode) (p : String) : Except LookupErr SNode :=
  if pathHasSep p then getFromPath nd p else getChildE nd p

/-- Embedding of `__contains__`: for separator-containing paths the
resolution of `_get_setting_from_path` is attempted and only `KeyError` is
converted to `False`; bare names test the child dictionary directly.  The
receiver being a leaf `Setting` raises `TypeError`. -/
def containsE (nd : SNode) (p : String) : Except LookupErr Bool :=
  match nd with
  | .setting _ => .error .typeErr
  | .group n tg cs =>
      if pathHasSep p then
        match getFromPath (.group n tg cs) p with
        | .ok _ => .ok true
        | .error .keyErr => .ok false
        | .error .typeErr => .error .typeErr
      else .ok (lookupChild cs p).isSome

/-- Modelled from the spec (§4.1, §8): the manual resolution a caller would
perform — split the path on the separator and walk every segment through
the child maps of nested groups.  Stated separately from the embedded code
so the claim can compare the two. -/
def specResolve : SNode → List String → Option SNode
  | nd, [] => some nd
  | .setting _, _ :: _ => none
  | .group _ _ cs, seg :: rest =>
      match lookupChild cs seg with
      | some c => specResolve c rest
      | none => none

/-!
Group container API (`_add_setting`, `_create_setting`).
-/

/-- Failure modes of `add`: `_add_setting` raises `ValueError` for a
duplicate name (`"... already exists in ..."`) and for adding a group to
itself (`"cannot add ... as a child of itself"`); `_create_setting` raises
`TypeError` for a missing `type` or `name` attribute, `ValueError` for a
separator inside the name or a duplicate name, and forwards a `TypeError`
of the setting constructor. -/
inductive AddErr where
  | duplicateName
  | selfAdd
  | missingType
  | missingName
  | sepInName
  | ctorTypeErr (msg : String)
deriving DecidableEq, Repr

/-- Embedding of `_add_setting` on a group with name `n`, tags `tg` and
child dictionary `cs`: reject a present name first, then reject
`setting == self`, otherwise insert the node under its name at the end of
the dictionary (insertion of a fresh key appends). -/
def addSetting (n : String) (tg : List String) (cs : List (String × SNode))
    (st : SNode) : Except AddErr (List (String × SNode)) :=
  if (lookupChild cs (nodeName st)).isSome then .error .duplicateName
  else if SNode.beq st (.group n tg cs) then .error .selfAdd
  else .ok (cs ++ [(nodeName st, st)])

/-- Declarative description of a setting as handed to `_create_setting`:
whether the `type` key is present, the value of the `name` key when
present, and the outcome of calling `setting_type(**setting_data_copy)`
(the external constructor; the merge of the group's `setting_attributes`
defaults happens before this call and does not touch the group, so it is
absorbed into this outcome). -/
structure DeclData where
  hasType : Bool
  nameAttr : Option String
  construct : Except String Setting

/-- Embedding of `_create_setting` followed by `_instantiate_setting` on a
child dictionary `cs`: check `type`, check `name`, reject a separator in
the name, reject a present name, then call the constructor; only a fully
successful call appends the new leaf to the dictionary under the `name`
attribute. -/
def createSetting (cs : List (String × SNode)) (d : DeclData) :
    Except AddErr (List (String × SNode) × Setting) :=
  if !d.hasType then .error .missingType
  else
    match d.nameAttr with
    | none => .error .missingName
    | some nm =>
        if nm.toList.contains '/' then .error .sepInName
        else if (lookupChild cs nm).isSome then .error .duplicateName
        else
          match d.construct with
          | .error m => .error (.ctorTypeErr m)
          | .ok s => .ok (cs ++ [(nm, .setting s)], s)

/-!
Tree walker (`walk` and `_next`).

The generator in `walk` keeps an explicit stack `groups` of currently open
groups (deepest first) and repeatedly pulls `groups[0]._next()`; a group's
`_settings_iterator` for a walk started on fresh iterators is embedded as
the list of its not-yet-delivered children (`remaining`), together with the
index `idx` of the next child.  A frame also records the node's position
`path` in the tree (the list of child indices from the walked root), which
serves as the identity of the group object: the `groups[0] != self` test
of the source compares object identities, and the walked root is exactly
the node at path `[]`.  Walks over trees with persistent, possibly dirty
iterator state are embedded separately below (`CNode`, `walkStep`).
-/

/-- Observable behavior of one walk: yielded settings, yielded groups
(`include_groups`), and `on_end_group_walk` callbacks, each tagged with the
node's path from the walked root. -/
inductive Event where
  | vSetting (path : List Nat) (s : Setting)
  | vGroup (path : List Nat) (name : String)
  | endGroup (path : List Nat) (name : String)
deriving DecidableEq, Repr

/-- Path of the node an event concerns. -/
def eventPath : Event → List Nat
  | .vSetting p _ => p
  | .vGroup p _ => p
  | .endGroup p _ => p

/-- Stack entry of `walk`: one currently open group with its position,
name, next child index, and undelivered children (its live iterator). -/
structure Frame where
  path : List Nat
  name : String
  idx : Nat
  remaining : List (String × SNode)

mutual

/-- Number of nodes in a subtree (used only as the walk termination
measure). -/
def SNode.size : SNode → Nat
  | .setting _ => 1
  | .group _ _ cs => 1 + SNode.sizeChildren cs

/-- Number of nodes in the subtrees of a child list. -/
def SNode.sizeChildren : List (String × SNode) → Nat
  | [] => 0
  | (_, c) :: rest => SNode.size c + SNode.sizeChildren rest

end

/-- Embedding of the loop of `walk` driven by `_next`, for a walk starting
on fresh iterators.  The head frame delivers its next child: a `Setting`
passing `include_setting_func` is yielded; a `SettingGroup` passing it is
pushed and, when `include_groups`, yielded first; a failing group is pushed
without yield when `include_if_parent_skipped` and skipped with its whole
subtree otherwise; a failing setting is skipped.  An exhausted frame is
popped, emitting `on_end_group_walk` unless it is the walked root. -/
def walkAux (inc : SNode → Bool) (ig iips : Bool) : List Frame → List Event
  | [] => []
  | ⟨p, n, _, []⟩ :: stk =>
      (if p = [] then [] else [Event.endGroup p n]) ++ walkAux inc ig iips stk
  | ⟨p, n, i, (_, SNode.setting s) :: rest⟩ :: stk =>
      if inc (.setting s) then
        Event.vSetting (p ++ [i]) s :: walkAux inc ig iips (⟨p, n, i + 1, rest⟩ :: stk)
      else walkAux inc ig iips (⟨p, n, i + 1, rest⟩ :: stk)
  | ⟨p, n, i, (_, SNode.group gname gtags gcs) :: rest⟩ :: stk =>
      if inc (.group gname gtags gcs) then
        (if ig then [Event.vGroup (p ++ [i]) gname] else []) ++
          walkAux inc ig iips
            (⟨p ++ [i], gname, 0, gcs⟩ :: ⟨p, n, i + 1, rest⟩ :: stk)
      else if iips then
        walkAux inc ig iips (⟨p ++ [i], gname, 0, gcs⟩ :: ⟨p, n, i + 1, rest⟩ :: stk)
      else walkAux inc ig iips (⟨p, n, i + 1, rest⟩ :: stk)
termination_by stk => 2 * (stk.map (fun f => SNode.sizeChildren f.remaining)).sum + stk.length
decreasing_by
  all_goals simp [SNode.sizeChildren, SNode.size]
  all_goals omega

/-- Walk of a group from fresh iterator state (`walk` is a method of
`SettingGroup`; on a leaf node it does not arise and produces nothing). -/
def walkEvents (inc : SNode → Bool) (ig iips : Bool) : SNode → List Event
  | .setting _ => []
  | .group n _ cs => walkAux inc ig iips [⟨[], n, 0, cs⟩]

/-- Settings yielded by a walk with `include_groups = False` and
`include_if_parent_skipped = False` (the default arguments used by every
bulk operation of the source). -/
def walkSettings (inc : SNode → Bool) (t : SNode) : List Setting :=
  (walkEvents inc false false t).filterMap (fun e =>
    match e with
    | .vSetting _ s => some s
    | _ => none)

mutual

/-- Modelled from the spec (§4.2, §8): the canonical pre-order description
of one node — a group is announced, then its subtree in order, then its
end-group callback; a setting is just yielded.  Stated separately from the
embedded `walkAux` so the claim can compare the two. -/
def preorderNode (cp : List Nat) : SNode → List Event
  | .setting s => [Event.vSetting cp s]
  | .group n _ cs =>
      Event.vGroup cp n :: (preorderChildren cp 0 cs ++ [Event.endGroup cp n])

/-- Canonical pre-order of a child list, siblings in insertion order,
numbering children from `i` at position prefix `p`. -/
def preorderChildren (p : List Nat) (i : Nat) : List (String × SNode) → List Event
  | [] => []
  | (_, c) :: rest => preorderNode (p ++ [i]) c ++ preorderChildren p (i + 1) rest

end

/-- Events a frame of the walk stack still owes: the pre-order of its
undelivered children followed by its end-group callback unless it is the
walked root. -/
def frameEvents (f : Frame) : List Event :=
  preorderChildren f.path f.idx f.remaining ++
    (if f.path = [] then [] else [Event.endGroup f.path f.name])

/-!
Persistence coordinator (`load`, `save`, `_load_save`, `_get_worst_status`).

`pgsettingpersistor.SettingPersistor` supplies the four status constants
and the backend `load`/`save` functions; the backend function is a
parameter of the embedding (the coordinator only forwards
`(settings, sources)` to it and consumes the returned pair).
-/

/-- Status constants of `SettingPersistor`. -/
inductive Status where
  | SUCCESS
  | NOT_ALL_SETTINGS_FOUND
  | READ_FAIL
  | WRITE_FAIL
deriving DecidableEq, Repr

/-- Modelled from the spec (§3): fixed severity ranking, `SUCCESS` below
`NOT_ALL_SETTINGS_FOUND` below the two failure statuses, the latter two
both maximal. -/
def statusSeverity : Status → Nat
  | .SUCCESS => 0
  | .NOT_ALL_SETTINGS_FOUND => 1
  | .READ_FAIL => 2
  | .WRITE_FAIL => 2

/-- Embedding of `_get_worst_status` applied to the keys of the
`status_and_messages` dictionary: start from `SUCCESS`, upgrade to
`NOT_ALL_SETTINGS_FOUND` when present, then let `READ_FAIL`, or else
`WRITE_FAIL`, override. -/
def getWorstStatus (keys : List Status) : Status :=
  let worst :=
    if Status.NOT_ALL_SETTINGS_FOUND ∈ keys then Status.NOT_ALL_SETTINGS_FOUND
    else Status.SUCCESS
  if Status.READ_FAIL ∈ keys then Status.READ_FAIL
  else if Status.WRITE_FAIL ∈ keys then Status.WRITE_FAIL
  else worst

/-- Walk predicate of the bulk operations:
`lambda setting: tag not in setting.tags`. -/
def notIgnored (tag : String) (nd : SNode) : Bool :=
  !(decide (tag ∈ nodeTags nd))

/-- Embedding of lines 608-610 of `_load_save`: walk the group with the
ignore-tag predicate and keep the settings whose `setting_sources` is
non-empty (Python truthiness of the sequence). -/
def keptSettings (t : SNode) (tag : String) : List Setting :=
  (walkSettings (notIgnored tag) t).filter (fun s => !s.setting_sources.isEmpty)

/-- Bucket key of one setting (lines 615-619): its full `setting_sources`
when no explicit sources are given, otherwise the order-preserving
intersection of its `setting_sources` with the explicit sources. -/
def bucketKey (explicit : Option (List String)) (s : Setting) : List String :=
  match explicit with
  | none => s.setting_sources
  | some es => s.setting_sources.filter (fun src => decide (src ∈ es))

/-- The dictionary update of lines 622-625: create the key with an empty
list when absent (appending the key at the end, ordered-dictionary
semantics) and append the setting to the key's list. -/
def dictAppend (d : List (List String × List Setting)) (key : List String)
    (s : Setting) : List (List String × List Setting) :=
  match d with
  | [] => [(key, [s])]
  | (k, v) :: rest =>
      if k = key then (k, v ++ [s]) :: rest else (k, v) :: dictAppend rest key s

/-- The partition loop of lines 614-625 over the kept settings: a setting
with an empty bucket key (`if sources:`) is silently dropped, every other
setting is appended to the bucket of its key. -/
def buildBuckets (explicit : Option (List String)) :
    List Setting → List (List String × List Setting) →
      List (List String × List Setting)
  | [], d => d
  | s :: rest, d =>
      let key := bucketKey explicit s
      if key.isEmpty then buildBuckets explicit rest d
      else buildBuckets explicit rest (dictAppend d key s)

/-- The `settings_per_sources` ordered dictionary a load or save builds. -/
def loadSaveBuckets (t : SNode) (tag : String) (explicit : Option (List String)) :
    List (List String × List Setting) :=
  buildBuckets explicit (keptSettings t tag) []

/-- Results of the backend invocations of lines 629-631, one call per
bucket in partition order. -/
def bucketResults (t : SNode) (tag : String)
    (backend : List Setting → List String → Status × String)
    (explicit : Option (List String)) : List (Status × String) :=
  (loadSaveBuckets t tag explicit).map (fun kv => backend kv.2 kv.1)

/-- Assignment `status_and_messages[status] = message`: replace the value
in place when the status key is present, append the pair otherwise. -/
def dictSet (d : List (Status × String)) (st : Status) (m : String) :
    List (Status × String) :=
  match d with
  | [] => [(st, m)]
  | (k, v) :: rest =>
      if k = st then (k, m) :: rest else (k, v) :: dictSet rest st m

/-- The `status_and_messages` dictionary accumulated over the bucket
results in partition order. -/
def buildStatusMessages : List (Status × String) → List (Status × String) →
    List (Status × String)
  | [], d => d
  | (st, m) :: rest, d => buildStatusMessages rest (dictSet d st m)

/-- Dictionary lookup returning an `Option`
(`status_and_messages.get(key)`). -/
def dictFind (d : List (Status × String)) (st : Status) : Option String :=
  (d.find? (fun kv => kv.1 = st)).map (fun kv => kv.2)

/-- Embedding of `_load_save`: build the buckets, call the backend once
per bucket, key the messages by status, and return the worst status with
the message stored under it (`""` when absent). -/
def loadSave (t : SNode) (tag : String)
    (backend : List Setting → List String → Status × String)
    (explicit : Option (List String)) : Status × String :=
  let sam := buildStatusMessages (bucketResults t tag backend explicit) []
  let worst := getWorstStatus (sam.map Prod.fst)
  (worst, (dictFind sam worst).getD "")

/-- Message of the last pair with the given status in a result list (the
value a status-keyed dictionary retains after all assignments). -/
def lastMsgFor : List (Status × String) → Status → Option String
  | [], _ => none
  | (st, m) :: rest, q =>
      match lastMsgFor rest q with
      | some m2 => some m2
      | none => if st = q then some m else none

/-- Concrete tree for the claim C1 counterexample: two settings persisted
to different single sources, producing two buckets. -/
def c1tree : SNode :=
  .group "root" []
    [("s1", .setting ⟨"s1", [], ["A"]⟩), ("s2", .setting ⟨"s2", [], ["B"]⟩)]

/-- Concrete backend for the claim C1 counterexample: both buckets succeed,
with different messages. -/
def c1backend : List Setting → List String → Status × String :=
  fun _ key => if key = ["A"] then (.SUCCESS, "m1") else (.SUCCESS, "m2")

mutual

/-- All settings of a subtree in pre-order (the reference set a walk can
ever yield). -/
def settingsOf : SNode → List Setting
  | .setting s => [s]
  | .group _ _ cs => settingsOfChildren cs

/-- All settings of the subtrees of a child list. -/
def settingsOfChildren : List (String × SNode) → List Setting
  | [] => []
  | (_, c) :: rest => settingsOf c ++ settingsOfChildren rest

end

/-- Settings still reachable from a walk stack. -/
def stackSettings (stk : List Frame) : List Setting :=
  (stk.map (fun f => settingsOfChildren f.remaining)).flatten

/-- Concrete tree for the claim C5 witness: setting `s1` persists to
sources `A` and `B`, setting `s2` to `A` alone, giving two buckets. -/
def c5tree : SNode :=
  .group "root" []
    [("s1", .setting ⟨"s1", [], ["A", "B"]⟩),
     ("s2", .setting ⟨"s2", [], ["A"]⟩)]

/-- Concrete tree for the claim C10 witness: one setting carries the
ignore tag, the other has no sources. -/
def c10tree : SNode :=
  .group "root" []
    [("a", .setting ⟨"a", ["ignore_load"], ["A"]⟩),
     ("b", .setting ⟨"b", [], []⟩)]

/-!
GUI value application (`apply_gui_values_to_settings`).

`setting.gui.update_setting_value()` is the external GUI-binding
collaborator: the embedding takes it as a function `upd` returning the
message of the raised `SettingValueError` for an invalid value and `none`
for a valid one (`e.setting` is the setting the error was raised for).
-/

/-- The try/except loop of lines 691-696: walk order preserved, every
failing setting contributes its pair, non-failing settings contribute
nothing, and no failure stops the loop. -/
def collectGuiFailures (upd : Setting → Option String) :
    List Setting → List (Setting × String)
  | [] => []
  | s :: rest =>
      match upd s with
      | some m => (s, m) :: collectGuiFailures upd rest
      | none => collectGuiFailures upd rest

/-- Embedding of `"\n".join(exception_messages)`. -/
def joinLines : List String → String
  | [] => ""
  | [m] => m
  | m :: m1 :: rest => m ++ "\n" ++ joinLines (m1 :: rest)

/-- The composite `SettingValueError` raised by
`apply_gui_values_to_settings`: joined message, first offending setting,
one message per invalid setting and the offending settings themselves. -/
structure AggValueErr where
  message : String
  firstSetting : Setting
  messages : List String
  settings : List Setting
deriving DecidableEq, Repr

/-- Embedding of `apply_gui_values_to_settings`: walk every setting not
tagged `ignore_apply_gui_value_to_setting`, collect all failures, raise
one composite error afterwards if there was any failure, nothing
otherwise. -/
def applyGuiValuesToSettings (t : SNode) (upd : Setting → Option String) :
    Option AggValueErr :=
  let fails := collectGuiFailures upd
    (walkSettings (notIgnored "ignore_apply_gui_value_to_setting") t)
  match fails with
  | [] => none
  | (s0, _) :: _ =>
      some ⟨joinLines (fails.map Prod.snd), s0, fails.map Prod.snd,
        fails.map Prod.fst⟩

/-- Concrete tree for the claim C7 witness: two settings, both failing
validation under `c7upd`. -/
def c7tree : SNode :=
  .group "root" []
    [("a", .setting ⟨"a", [], []⟩), ("b", .setting ⟨"b", [], []⟩)]

/-- Concrete GUI collaborator for the claim C7 witness: both fields are
invalid, with distinct messages. -/
def c7upd : Setting → Option String :=
  fun s => if s.name = "a" then some "bad a"
    else if s.name = "b" then some "bad b" else none

/-!
Walks with persistent iterator state (`_next` across several `walk` calls).

A group object keeps `_settings_iterator` between walks: it is `None`
initially, `_next` creates it on demand, advances it, and resets it to
`None` on `StopIteration` — so an abandoned walk leaves intermediate
cursors behind and a later walk resumes them.  `CNode` extends the tree
with this per-group cursor (`none` embeds `_settings_iterator is None`,
`some k` an iterator whose next element is the `k`-th child); `walkStep`
performs one `groups[0]._next()` round of the `walk` loop, `runWalk` runs
the loop to exhaustion (with fuel, returning `none` when the fuel does not
suffice), and `runSteps` pulls a fixed number of rounds and then abandons
the generator.
-/

/-- Setting tree node with the persistent iterator state of its group
objects. -/
inductive CNode where
  | setting (s : Setting)
  | group (name : String) (tags : List String) (cursor : Option Nat)
      (children : List (String × CNode))
deriving Repr

mutual

/-- The tree of a stateful node with all iterator state dropped. -/
def eraseC : CNode → SNode
  | .setting s => .setting s
  | .group n tg _ cs => .group n tg (eraseChildren cs)

/-- Children with iterator state dropped. -/
def eraseChildren : List (String × CNode) → List (String × SNode)
  | [] => []
  | (k, c) :: rest => (k, eraseC c) :: eraseChildren rest

end

mutual

/-- A plain tree equipped with everywhere-`None` iterators (the state of
freshly constructed groups). -/
def decorate : SNode → CNode
  | .setting s => .setting s
  | .group n tg cs => .group n tg none (decorateChildren cs)

/-- Children equipped with everywhere-`None` iterators. -/
def decorateChildren : List (String × SNode) → List (String × CNode)
  | [] => []
  | (k, c) :: rest => (k, decorate c) :: decorateChildren rest

end

mutual

/-- Is every iterator of the subtree `None`? -/
def cursorFree : CNode → Bool
  | .setting _ => true
  | .group _ _ c cs => c.isNone && cursorFreeChildren cs

/-- Is every iterator below the child list `None`? -/
def cursorFreeChildren : List (String × CNode) → Bool
  | [] => true
  | (_, c) :: rest => cursorFree c && cursorFreeChildren rest

end

/-- Node of a stateful tree at a child-index path. -/
def getAtC : CNode → List Nat → Option CNode
  | nd, [] => some nd
  | .setting _, _ :: _ => none
  | .group _ _ _ cs, i :: q =>
      match cs.get? i with
      | some kc => getAtC kc.2 q
      | none => none

/-- Iterator state of the group at a path (`none` as well when the path
does not name a group). -/
def cursorAt (t : CNode) (p : List Nat) : Option Nat :=
  match getAtC t p with
  | some (.group _ _ c _) => c
  | _ => none

mutual

/-- Replacement of the iterator state of the group at a path, leaving
everything else untouched. -/
def setCursorAt : CNode → List Nat → Option Nat → CNode
  | .group n tg _ cs, [], v => .group n tg v cs
  | .setting s, [], _ => .setting s
  | .setting s, _ :: _, _ => .setting s
  | .group n tg c cs, i :: q, v => .group n tg c (setChildCursor cs i q v)

/-- Replacement of the iterator state below the `i`-th child. -/
def setChildCursor : List (String × CNode) → Nat → List Nat → Option Nat →
    List (String × CNode)
  | [], _, _, _ => []
  | (k, c) :: rest, 0, q, v => (k, setCursorAt c q v) :: rest
  | (k, c) :: rest, i + 1, q, v => (k, c) :: setChildCursor rest i q v

end

/-- One round of the `walk` loop on stateful trees: pull
`groups[0]._next()` — creating the iterator at position `0` when `None`,
resuming it otherwise — and dispatch exactly as in `walkAux`; on
`StopIteration` reset the group's iterator to `None`, pop it, and emit the
end-group callback unless the popped group is the walked root (path `[]`).
`none` signals that the stack is exhausted and the walk is over. -/
def walkStep (inc : CNode → Bool) (ig iips : Bool) (t : CNode) :
    List (List Nat) → Option (List Event × CNode × List (List Nat))
  | [] => none
  | p :: rest =>
      match getAtC t p with
      | some (.group n _ cur cs) =>
          let c0 := cur.getD 0
          if h : c0 < cs.length then
            let t2 := setCursorAt t p (some (c0 + 1))
            match (cs.get ⟨c0, h⟩).2 with
            | .setting s =>
                if inc (.setting s) then
                  some ([Event.vSetting (p ++ [c0]) s], t2, p :: rest)
                else some ([], t2, p :: rest)
            | .group gn gtg gcur gcs =>
                if inc (.group gn gtg gcur gcs) then
                  some ((if ig then [Event.vGroup (p ++ [c0]) gn] else []),
                    t2, (p ++ [c0]) :: p :: rest)
                else if iips then some ([], t2, (p ++ [c0]) :: p :: rest)
                else some ([], t2, p :: rest)
          else
            some ((if p = [] then [] else [Event.endGroup p n]),
              setCursorAt t p none, rest)
      | _ => some ([], t, rest)

/-- The `walk` loop run to exhaustion with the given fuel: `none` when the
fuel ran out before the stack emptied. -/
def runWalk (inc : CNode → Bool) (ig iips : Bool) :
    Nat → CNode → List (List Nat) → Option (List Event × CNode)
  | 0, t, stack => if stack.isEmpty then some ([], t) else none
  | fuel + 1, t, stack =>
      match walkStep inc ig iips t stack with
      | none => some ([], t)
      | some (evs, t2, st2) =>
          match runWalk inc ig iips fuel t2 st2 with
          | none => none
          | some (evs2, tf) => some (evs ++ evs2, tf)

/-- A prefix of the `walk` loop: pull the given number of rounds and then
abandon the generator, leaving the iterator state and stack behind. -/
def runSteps (inc : CNode → Bool) (ig iips : Bool) :
    Nat → CNode → List (List Nat) → List Event × CNode × List (List Nat)
  | 0, t, stack => ([], t, stack)
  | n + 1, t, stack =>
      match walkStep inc ig iips t stack with
      | none => ([], t, stack)
      | some (evs, t2, st2) =>
          let r := runSteps inc ig iips n t2 st2
          (evs ++ r.1, r.2)

/-- Every group whose iterator is live lies on the open-group stack: the
invariant relating the iterator state of a tree to the stack of the walk
loop acting on it. -/
def DirtySub (t : CNode) (st : List (List Nat)) : Prop :=
  ∀ q, cursorAt t q ≠ none → q ∈ st

/-- Concrete two-setting group, fresh iterator state, for claim C9. -/
def c9tree : CNode :=
  .group "root" [] none
    [("a", .setting ⟨"a", [], []⟩), ("b", .setting ⟨"b", [], []⟩)]

/-- The same group after one pulled element and abandonment: the root's
iterator is parked before the second child. -/
def c9dirty : CNode :=
  .group "root" [] (some 1)
    [("a", .setting ⟨"a", [], []⟩), ("b", .setting ⟨"b", [], []⟩)]

mutual

theorem SNode.beq_refl (n : SNode) : SNode.beq n n = true := by
  cases n with
  | setting s => simp [SNode.beq]
  | group n tg cs => simp [SNode.beq, SNode.beqChildren_refl cs]

theorem SNode.beqChildren_refl (cs : List (String × SNode)) :
    SNode.beqChildren cs cs = true := by
  cases cs with
  | nil => simp [SNode.beqChildren]
  | cons h t =>
      cases h with
      | mk k v => simp [SNode.beqChildren, SNode.beq_refl v, SNode.beqChildren_refl t]

end

theorem splitOnChar_ne_nil (sep : Char) (l : List Char) : splitOnChar sep l ≠ [] := by
  induction l with
  | nil => simp [splitOnChar]
  | cons c rest ih =>
      simp only [splitOnChar]
      by_cases h : c = sep
      · simp [h]
      · rw [if_neg h]
        cases hr : splitOnChar sep rest with
        | nil => simp
        | cons a t => simp

theorem splitOnChar_not_mem (sep : Char) (l : List Char) :
    ∀ comp ∈ splitOnChar sep l, sep ∉ comp := by
  induction l with
  | nil =>
      intro comp hc
      simp only [splitOnChar, List.mem_singleton] at hc
      simp [hc]
  | cons c rest ih =>
      intro comp hc
      simp only [splitOnChar] at hc
      by_cases h : c = sep
      · rw [if_pos h] at hc
        rcases List.mem_cons.mp hc with hc | hc
        · simp [hc]
        · exact ih comp hc
      · rw [if_neg h] at hc
        cases hr : splitOnChar sep rest with
        | nil => exact absurd hr (splitOnChar_ne_nil sep rest)
        | cons a t =>
            rw [hr] at hc
            rcases List.mem_cons.mp hc with hc | hc
            · subst hc
              intro hmem
              rcases List.mem_cons.mp hmem with h1 | h1
              · exact h h1.symm
              · exact ih a (by rw [hr]; exact List.mem_cons_self a t) h1
            · exact ih comp (by rw [hr]; exact List.mem_cons_of_mem a hc)

theorem splitOnChar_of_not_mem (sep : Char) (l : List Char) (h : sep ∉ l) :
    splitOnChar sep l = [l] := by
  induction l with
  | nil => simp [splitOnChar]
  | cons c rest ih =>
      simp only [splitOnChar]
      have hc : ¬c = sep := fun he => h (by simp [he])
      rw [if_neg hc, ih (fun hm => h (List.mem_cons_of_mem c hm))]

theorem strMk_toList (p : String) : String.mk p.toList = p := by
  cases p
  rfl

theorem splitPath_of_no_sep (p : String) (h : pathHasSep p = false) :
    splitPath p = [p] := by
  have hmem : '/' ∉ p.toList := by
    rw [pathHasSep] at h
    simpa using h
  rw [splitPath, splitOnChar_of_not_mem _ _ hmem]
  simp [strMk_toList]

theorem resolvePath_setting_not_ok (s : Setting) (comps : List String) (r : SNode) :
    resolvePath (.setting s) comps ≠ .ok r := by
  cases comps with
  | nil => simp [resolvePath]
  | cons a t =>
      cases t with
      | nil => simp [resolvePath, getChildE]
      | cons b t2 => simp [resolvePath]

theorem resolvePath_ok_specResolve :
    ∀ (comps : List String) (nd r : SNode),
      resolvePath nd comps = .ok r → specResolve nd comps = some r := by
  intro comps
  induction comps with
  | nil => intro nd r h; simp [resolvePath] at h
  | cons seg rest ih =>
      intro nd r h
      cases rest with
      | nil =>
          cases nd with
          | setting s => exact absurd h (resolvePath_setting_not_ok s [seg] r)
          | group n tg cs =>
              simp only [resolvePath, getChildE] at h
              cases hl : lookupChild cs seg with
              | none => rw [hl] at h; exact absurd h (by simp)
              | some c =>
                  rw [hl] at h
                  have : c = r := by injection h
                  subst this
                  simp [specResolve, hl]
      | cons s2 t2 =>
          cases nd with
          | setting s => exact absurd h (resolvePath_setting_not_ok s _ r)
          | group n tg cs =>
              simp only [resolvePath] at h
              cases hl : lookupChild cs seg with
              | none => rw [hl] at h; exact absurd h (by simp)
              | some nxt =>
                  rw [hl] at h
                  simp only [specResolve, hl]
                  exact ih nxt r h

/-- Claim C3: the contains-check (`path in group`, `__contains__`) answers
`True` exactly when `__getitem__` on the same path succeeds, and a
successful lookup returns exactly the node obtained by splitting the path
on the separator and walking every segment through the child maps of nested
groups (`specResolve`). -/
theorem claim3_contains_iff_getitem (nd : SNode) (p : String) :
    (containsE nd p = .ok true ↔ ∃ r, getItemE nd p = .ok r) ∧
    (∀ r, getItemE nd p = .ok r → specResolve nd (splitPath p) = some r) := by
  constructor
  · cases nd with
    | setting s =>
        simp only [containsE, getItemE, getFromPath]
        constructor
        · intro h; exact absurd h (by simp)
        · intro ⟨r, hr⟩
          by_cases hs : pathHasSep p
          · rw [if_pos hs] at hr
            exact absurd hr (resolvePath_setting_not_ok s _ r)
          · rw [if_neg hs] at hr
            simp [getChildE] at hr
    | group n tg cs =>
        by_cases hs : pathHasSep p
        · simp only [containsE, getItemE, if_pos hs]
          cases hg : getFromPath (.group n tg cs) p with
          | ok r => simp [hg]
          | error e =>
              cases e with
              | keyErr => simp [hg]
              | typeErr => simp [hg]
        · simp only [containsE, getItemE, if_neg hs, getChildE]
          cases hl : lookupChild cs p with
          | none => simp [hl]
          | some c => simp [hl]
  · intro r hr
    by_cases hs : pathHasSep p
    · rw [getItemE, if_pos hs, getFromPath] at hr
      exact resolvePath_ok_specResolve _ nd r hr
    · rw [getItemE, if_neg hs] at hr
      rw [splitPath_of_no_sep p (by simp [hs])]
      cases nd with
      | setting s => simp [getChildE] at hr
      | group n tg cs =>
          simp only [getChildE] at hr
          cases hl : lookupChild cs p with
          | none => rw [hl] at hr; exact absurd hr (by simp)
          | some c =>
              rw [hl] at hr
              have : c = r := by injection hr
              subst this
              simp [specResolve, hl]

/-- Witness for claim C3 at a concrete two-level group and path. -/
theorem claim3_witness :
    specResolve
      (.group "root" [] [("main", .group "main" []
        [("ext", .setting ⟨"ext", [], []⟩)])])
      (splitPath "main/ext") = some (.setting ⟨"ext", [], []⟩) :=
  (claim3_contains_iff_getitem
    (.group "root" [] [("main", .group "main" []
      [("ext", .setting ⟨"ext", [], []⟩)])]) "main/ext").2
    (.setting ⟨"ext", [], []⟩) (by rfl)

/-- Claim C2, counterexample: `_add_setting` only rejects `setting == self`,
not a group whose subtree contains the target group.  Adding the group
`H = group "h" [g]`, whose subtree contains `G = group "g" []`, to `G`
succeeds and changes `G`'s child set, contradicting the claim that such an
add fails and leaves the children unchanged. -/
theorem claim2_counterexample :
    occursIn (.group "g" [] []) (.group "h" [] [("g", .group "g" [] [])]) = true ∧
    addSetting "g" [] [] (.group "h" [] [("g", .group "g" [] [])]) =
      .ok [("h", .group "h" [] [("g", .group "g" [] [])])] := by
  constructor
  · rfl
  · rfl

/-- Claim C2 as amended: only the direct case is rejected — adding a group
to itself (the added node equal to the receiving group) always fails with
an error, producing no modified child dictionary; deeper self-containment
is not checked by `_add_setting`. -/
theorem claim2_self_add_fails (n : String) (tg : List String)
    (cs : List (String × SNode)) (st : SNode)
    (h : st = SNode.group n tg cs) :
    ∃ e, addSetting n tg cs st = .error e := by
  subst h
  rw [addSetting]
  by_cases hd : (lookupChild cs (nodeName (SNode.group n tg cs))).isSome
  · exact ⟨.duplicateName, by rw [if_pos hd]⟩
  · refine ⟨.selfAdd, ?_⟩
    rw [if_neg hd, if_pos (SNode.beq_refl _)]

/-- Witness for the amended claim C2 at a concrete group. -/
theorem claim2_witness :
    ∃ e, addSetting "g" [] [("a", .setting ⟨"a", [], []⟩)]
      (.group "g" [] [("a", .setting ⟨"a", [], []⟩)]) = .error e :=
  claim2_self_add_fails "g" [] [("a", .setting ⟨"a", [], []⟩)]
    (.group "g" [] [("a", .setting ⟨"a", [], []⟩)]) rfl

/-- Claim C8: with a child of name `n` already present, adding another
child named `n` fails with the duplicate-name error, both for an
already-constructed node (`_add_setting`) and for a well-formed declarative
description (`_create_setting`); in both functions the error is raised
before any mutation, so no modified child dictionary is produced and the
existing child set and ordering stay as they were. -/
theorem claim8_duplicate_add_fails (n : String) (tg : List String)
    (cs : List (String × SNode)) (st : SNode) (d : DeclData) (nm : String)
    (hdup : (lookupChild cs (nodeName st)).isSome = true)
    (hty : d.hasType = true) (hnm : d.nameAttr = some nm)
    (hsep : nm.toList.contains '/' = false)
    (hdup2 : (lookupChild cs nm).isSome = true) :
    addSetting n tg cs st = .error .duplicateName ∧
    createSetting cs d = .error .duplicateName := by
  constructor
  · rw [addSetting, if_pos hdup]
  · rw [createSetting, hty, hnm]
    simp only [Bool.not_true, Bool.false_eq_true, if_false]
    rw [if_neg (by rw [hsep]; simp), if_pos hdup2]

/-- Witness for claim C8 at a concrete group holding a child named `a`. -/
theorem claim8_witness :
    addSetting "g" [] [("a", .setting ⟨"a", [], []⟩)] (.setting ⟨"a", ["t"], []⟩) =
      .error .duplicateName ∧
    createSetting [("a", .setting ⟨"a", [], []⟩)]
      ⟨true, some "a", .ok ⟨"a", [], []⟩⟩ = .error .duplicateName :=
  claim8_duplicate_add_fails "g" [] [("a", .setting ⟨"a", [], []⟩)]
    (.setting ⟨"a", ["t"], []⟩) ⟨true, some "a", .ok ⟨"a", [], []⟩⟩ "a"
    (by rfl) rfl rfl (by rfl) (by rfl)

theorem walkAux_all_eq (stk : List Frame) :
    walkAux (fun _ => true) true false stk = (stk.map frameEvents).flatten := by
  induction stk using walkAux.induct (fun _ => true) true false with
  | case1 => simp [walkAux]
  | case2 p n i stk ih => simp [walkAux, frameEvents, preorderChildren, ih]
  | case3 p n i k s rest stk hc ih =>
      simp [walkAux, frameEvents, preorderChildren, preorderNode, ih]
  | case4 p n i k s rest stk hc ih => exact absurd rfl hc
  | case5 p n i k gname gtags gcs rest stk hc ih =>
      simp [walkAux, frameEvents, preorderChildren, preorderNode, ih]
  | case6 p n i k gname gtags gcs rest stk hc hc2 ih => exact absurd rfl hc
  | case7 p n i k gname gtags gcs rest stk hc hc2 ih => exact absurd rfl hc

mutual

theorem preorderNode_path (cp : List Nat) (t : SNode) :
    ∀ e ∈ preorderNode cp t, ∃ suf, eventPath e = cp ++ suf := by
  cases t with
  | setting s =>
      intro e he
      simp only [preorderNode, List.mem_singleton] at he
      exact ⟨[], by simp [he, eventPath]⟩
  | group n tg cs =>
      intro e he
      simp only [preorderNode, List.mem_cons, List.mem_append] at he
      rcases he with he | he | he | he
      · exact ⟨[], by simp [he, eventPath]⟩
      · obtain ⟨j, suf, _, hp⟩ := preorderChildren_path cp 0 cs e he
        exact ⟨j :: suf, hp⟩
      · exact ⟨[], by simp [he, eventPath]⟩
      · simp at he

theorem preorderChildren_path (p : List Nat) (i : Nat) (cs : List (String × SNode)) :
    ∀ e ∈ preorderChildren p i cs, ∃ j suf, i ≤ j ∧ eventPath e = p ++ j :: suf := by
  cases cs with
  | nil => intro e he; simp [preorderChildren] at he
  | cons kc rest =>
      intro e he
      cases kc with
      | mk k c =>
          simp only [preorderChildren, List.mem_append] at he
          rcases he with he | he
          · obtain ⟨suf, hp⟩ := preorderNode_path (p ++ [i]) c e he
            exact ⟨i, suf, le_refl i, by simp [hp]⟩
          · obtain ⟨j, suf, hj, hp⟩ := preorderChildren_path p (i + 1) rest e he
            exact ⟨j, suf, by omega, hp⟩

end

theorem preorderChildren_path_ne (p : List Nat) (i : Nat)
    (cs : List (String × SNode)) (e : Event) (he : e ∈ preorderChildren p i cs) :
    eventPath e ≠ p := by
  obtain ⟨j, suf, _, hp⟩ := preorderChildren_path p i cs e he
  intro hc
  rw [hc] at hp
  have hl := congrArg List.length hp
  simp at hl

mutual

theorem preorderNode_nodup (cp : List Nat) (t : SNode) : (preorderNode cp t).Nodup := by
  cases t with
  | setting s => simp [preorderNode]
  | group n tg cs =>
      rw [preorderNode]
      refine List.nodup_cons.mpr ⟨?_, ?_⟩
      · intro hmem
        rcases List.mem_append.mp hmem with h | h
        · exact preorderChildren_path_ne cp 0 cs _ h (by simp [eventPath])
        · simp at h
      · refine List.Nodup.append (preorderChildren_nodup cp 0 cs) (by simp) ?_
        intro e he he'
        simp only [List.mem_singleton] at he'
        exact preorderChildren_path_ne cp 0 cs e he (by simp [he', eventPath])

theorem preorderChildren_nodup (p : List Nat) (i : Nat) (cs : List (String × SNode)) :
    (preorderChildren p i cs).Nodup := by
  cases cs with
  | nil => simp [preorderChildren]
  | cons kc rest =>
      cases kc with
      | mk k c =>
          rw [preorderChildren]
          refine List.Nodup.append (preorderNode_nodup (p ++ [i]) c)
            (preorderChildren_nodup p (i + 1) rest) ?_
          intro e he he'
          obtain ⟨suf, hp⟩ := preorderNode_path (p ++ [i]) c e he
          obtain ⟨j, suf', hj, hp'⟩ := preorderChildren_path p (i + 1) rest e he'
          rw [hp'] at hp
          have h2 : p ++ j :: suf' = p ++ i :: suf := by simpa using hp
          have h3 : j :: suf' = i :: suf := List.append_cancel_left h2
          have : j = i := by injection h3
          omega

end

/-- Claim C4: for every group, walking with an always-true predicate and
`include_groups = True` produces exactly the canonical pre-order of its
subtree — every setting and every subgroup once, each subgroup announced
before its own subtree, siblings in insertion order, and the
`on_end_group_walk` callback fired exactly once per subgroup, immediately
after that subgroup's subtree and never for the walked root — and no event
of this walk is repeated. -/
theorem claim4_walk_preorder (n : String) (tg : List String)
    (cs : List (String × SNode)) :
    walkEvents (fun _ => true) true false (.group n tg cs) =
      preorderChildren [] 0 cs ∧
    (walkEvents (fun _ => true) true false (.group n tg cs)).Nodup := by
  have he : walkEvents (fun _ => true) true false (.group n tg cs) =
      preorderChildren [] 0 cs := by
    rw [walkEvents, walkAux_all_eq]
    simp [frameEvents]
  exact ⟨he, he ▸ preorderChildren_nodup [] 0 cs⟩

theorem dictFind_cons (k : Status) (v : String) (rest : List (Status × String))
    (q : Status) :
    dictFind ((k, v) :: rest) q = if k = q then some v else dictFind rest q := by
  by_cases h : k = q
  · subst h
    simp [dictFind, List.find?]
  · simp [dictFind, List.find?, h]

theorem dictFind_dictSet (d : List (Status × String)) (st : Status) (m : String)
    (q : Status) :
    dictFind (dictSet d st m) q = if st = q then some m else dictFind d q := by
  induction d with
  | nil =>
      by_cases h : st = q
      · simp [dictSet, dictFind, List.find?, h]
      · simp [dictSet, dictFind, List.find?, h]
  | cons kv rest ih =>
      cases kv with
      | mk k v =>
          by_cases hk : k = st
          · subst hk
            rw [dictSet, if_pos rfl, dictFind_cons, dictFind_cons]
            by_cases hq : k = q
            · simp [hq]
            · simp [hq]
          · rw [dictSet, if_neg hk, dictFind_cons, dictFind_cons, ih]
            by_cases hq : k = q
            · subst hq
              rw [if_pos rfl, if_neg (fun h => hk h.symm), if_pos rfl]
            · rw [if_neg hq, if_neg hq]

theorem dictFind_buildSM (rs : List (Status × String)) (d : List (Status × String))
    (q : Status) :
    dictFind (buildStatusMessages rs d) q =
      match lastMsgFor rs q with
      | some m => some m
      | none => dictFind d q := by
  induction rs generalizing d with
  | nil => simp [buildStatusMessages, lastMsgFor]
  | cons r rest ih =>
      cases r with
      | mk st m =>
          rw [buildStatusMessages, ih (dictSet d st m), lastMsgFor]
          cases lastMsgFor rest q with
          | some m2 => simp
          | none =>
              rw [dictFind_dictSet]
              by_cases h : st = q
              · simp [h]
              · simp [h]

theorem keys_dictSet (d : List (Status × String)) (st : Status) (m : String)
    (q : Status) :
    q ∈ (dictSet d st m).map Prod.fst ↔ q = st ∨ q ∈ d.map Prod.fst := by
  induction d with
  | nil => simp [dictSet]
  | cons kv rest ih =>
      cases kv with
      | mk k v =>
          by_cases hk : k = st
          · subst hk
            simp [dictSet]
          · simp only [dictSet, if_neg hk, List.map_cons, List.mem_cons, ih]
            tauto

theorem keys_buildSM (rs : List (Status × String)) (d : List (Status × String))
    (q : Status) :
    q ∈ (buildStatusMessages rs d).map Prod.fst ↔
      q ∈ rs.map Prod.fst ∨ q ∈ d.map Prod.fst := by
  induction rs generalizing d with
  | nil => simp [buildStatusMessages]
  | cons r rest ih =>
      cases r with
      | mk st m =>
          rw [buildStatusMessages, ih (dictSet d st m), keys_dictSet]
          simp only [List.map_cons, List.mem_cons]
          tauto

theorem getWorstStatus_congr (l1 l2 : List Status)
    (h : ∀ q, q ∈ l1 ↔ q ∈ l2) : getWorstStatus l1 = getWorstStatus l2 := by
  rw [getWorstStatus, getWorstStatus]
  by_cases h1 : Status.NOT_ALL_SETTINGS_FOUND ∈ l1 <;>
    by_cases h2 : Status.READ_FAIL ∈ l1 <;>
      by_cases h3 : Status.WRITE_FAIL ∈ l1 <;>
        simp_all [h Status.NOT_ALL_SETTINGS_FOUND, h Status.READ_FAIL,
          h Status.WRITE_FAIL]

theorem getWorstStatus_maximal (l : List Status) :
    ∀ st ∈ l, statusSeverity st ≤ statusSeverity (getWorstStatus l) := by
  intro st hst
  rw [getWorstStatus]
  cases st with
  | SUCCESS =>
      by_cases h2 : Status.READ_FAIL ∈ l <;> by_cases h3 : Status.WRITE_FAIL ∈ l <;>
        by_cases h1 : Status.NOT_ALL_SETTINGS_FOUND ∈ l <;>
          simp [h1, h2, h3, statusSeverity]
  | NOT_ALL_SETTINGS_FOUND =>
      by_cases h2 : Status.READ_FAIL ∈ l <;> by_cases h3 : Status.WRITE_FAIL ∈ l <;>
        simp [hst, h2, h3, statusSeverity]
  | READ_FAIL => simp [hst, statusSeverity]
  | WRITE_FAIL =>
      by_cases h2 : Status.READ_FAIL ∈ l <;> simp [hst, h2, statusSeverity]

theorem getWorstStatus_mem (l : List Status) (h : l ≠ []) :
    getWorstStatus l ∈ l := by
  rw [getWorstStatus]
  by_cases h2 : Status.READ_FAIL ∈ l
  · simp [h2]
  · by_cases h3 : Status.WRITE_FAIL ∈ l
    · simp [h2, h3]
    · by_cases h1 : Status.NOT_ALL_SETTINGS_FOUND ∈ l
      · simp [h1, h2, h3]
      · simp only [if_neg h1, if_neg h2, if_neg h3]
        cases l with
        | nil => exact absurd rfl h
        | cons a rest =>
            cases a with
            | SUCCESS => exact List.mem_cons_self _ _
            | NOT_ALL_SETTINGS_FOUND => exact absurd (List.mem_cons_self _ _) h1
            | READ_FAIL => exact absurd (List.mem_cons_self _ _) h2
            | WRITE_FAIL => exact absurd (List.mem_cons_self _ _) h3

theorem getWorstStatus_read_fail (l : List Status) (h : Status.READ_FAIL ∈ l) :
    getWorstStatus l = Status.READ_FAIL := by
  simp [getWorstStatus, h]

theorem getWorstStatus_all_success (l : List Status)
    (h : ∀ st ∈ l, st = Status.SUCCESS) : getWorstStatus l = Status.SUCCESS := by
  have h1 : Status.NOT_ALL_SETTINGS_FOUND ∉ l := fun hm => by
    exact absurd (h _ hm) (by simp)
  have h2 : Status.READ_FAIL ∉ l := fun hm => by
    exact absurd (h _ hm) (by simp)
  have h3 : Status.WRITE_FAIL ∉ l := fun hm => by
    exact absurd (h _ hm) (by simp)
  simp [getWorstStatus, h1, h2, h3]

theorem loadSave_eq_worst_lastMsg (t : SNode) (tag : String)
    (backend : List Setting → List String → Status × String)
    (explicit : Option (List String)) :
    loadSave t tag backend explicit =
      (getWorstStatus ((bucketResults t tag backend explicit).map Prod.fst),
       (lastMsgFor (bucketResults t tag backend explicit)
          (getWorstStatus
            ((bucketResults t tag backend explicit).map Prod.fst))).getD "") := by
  rw [loadSave]
  have hw : getWorstStatus
      ((buildStatusMessages (bucketResults t tag backend explicit) []).map Prod.fst) =
      getWorstStatus ((bucketResults t tag backend explicit).map Prod.fst) := by
    apply getWorstStatus_congr
    intro q
    rw [keys_buildSM]
    simp
  rw [hw]
  have hm := dictFind_buildSM (bucketResults t tag backend explicit) []
    (getWorstStatus ((bucketResults t tag backend explicit).map Prod.fst))
  cases hl : lastMsgFor (bucketResults t tag backend explicit)
      (getWorstStatus ((bucketResults t tag backend explicit).map Prod.fst)) with
  | some m =>
      rw [hl] at hm
      simp only [] at hm
      rw [hm]
  | none =>
      rw [hl] at hm
      simp only [] at hm
      rw [hm]
      simp [dictFind, List.find?]

/-- Claim C1, counterexample: a load with two buckets that both report the
overall worst status (`SUCCESS` here) returns the message of the *last*
such bucket, not the first — `status_and_messages` is keyed by status, so
the second bucket's assignment overwrites the first message.  The bucket
results are `[(SUCCESS, "m1"), (SUCCESS, "m2")]` in partition order, yet
the returned pair carries `"m2"`. -/
theorem claim1_counterexample :
    bucketResults c1tree "ignore_load" c1backend none =
      [(Status.SUCCESS, "m1"), (Status.SUCCESS, "m2")] ∧
    loadSave c1tree "ignore_load" c1backend none = (Status.SUCCESS, "m2") ∧
    "m2" ≠ "m1" := by
  refine ⟨?_, ?_, by decide⟩
  · simp [bucketResults, loadSaveBuckets, keptSettings, walkSettings, walkEvents,
      walkAux, notIgnored, nodeTags, c1tree, c1backend, buildBuckets, bucketKey,
      dictAppend]
  · simp [loadSave, bucketResults, loadSaveBuckets, keptSettings, walkSettings,
      walkEvents, walkAux, notIgnored, nodeTags, c1tree, c1backend, buildBuckets,
      bucketKey, dictAppend, buildStatusMessages, dictSet, getWorstStatus,
      dictFind, List.find?]

/-- Claim C1 as amended: the returned message is the message belonging to
the bucket that produced the overall worst status, and when several buckets
produce that same worst status the message returned is the one from the
*last* such bucket in partition order (each bucket's assignment
`status_and_messages[status] = message` overwrites the previous message
stored under that status); with no buckets at all the message is `""`. -/
theorem claim1_message_from_last_worst_bucket (t : SNode) (tag : String)
    (backend : List Setting → List String → Status × String)
    (explicit : Option (List String)) :
    loadSave t tag backend explicit =
      (getWorstStatus ((bucketResults t tag backend explicit).map Prod.fst),
       (lastMsgFor (bucketResults t tag backend explicit)
          (getWorstStatus
            ((bucketResults t tag backend explicit).map Prod.fst))).getD "") :=
  loadSave_eq_worst_lastMsg t tag backend explicit

/-- Claim C6: the status returned by a load or save is the aggregation of
the per-bucket statuses by `_get_worst_status`, and that aggregation picks
a most severe status present: it dominates every reported status in the
severity order `SUCCESS < NOT_ALL_SETTINGS_FOUND < READ_FAIL/WRITE_FAIL`,
it is one of the reported statuses whenever any bucket reported, a
`READ_FAIL` anywhere forces `READ_FAIL` overall, and all-`SUCCESS` reports
aggregate to `SUCCESS`. -/
theorem claim6_worst_status_aggregation (t : SNode) (tag : String)
    (backend : List Setting → List String → Status × String)
    (explicit : Option (List String)) :
    (loadSave t tag backend explicit).1 =
      getWorstStatus ((bucketResults t tag backend explicit).map Prod.fst) ∧
    (∀ l : List Status,
      (∀ st ∈ l, statusSeverity st ≤ statusSeverity (getWorstStatus l)) ∧
      (l ≠ [] → getWorstStatus l ∈ l) ∧
      (Status.READ_FAIL ∈ l → getWorstStatus l = Status.READ_FAIL) ∧
      ((∀ st ∈ l, st = Status.SUCCESS) → getWorstStatus l = Status.SUCCESS)) := by
  constructor
  · rw [loadSave_eq_worst_lastMsg]
  · intro l
    exact ⟨getWorstStatus_maximal l, getWorstStatus_mem l,
      getWorstStatus_read_fail l, getWorstStatus_all_success l⟩

/-- Witness for claim C6: at a concrete load, one `SUCCESS` bucket and one
`READ_FAIL` bucket aggregate to `READ_FAIL`, and two `SUCCESS` buckets
aggregate to `SUCCESS`. -/
theorem claim6_witness :
    getWorstStatus [Status.SUCCESS, Status.READ_FAIL] = Status.READ_FAIL ∧
    getWorstStatus [Status.SUCCESS, Status.SUCCESS] = Status.SUCCESS := by
  constructor
  · exact ((claim6_worst_status_aggregation c1tree "ignore_load" c1backend none).2
      [Status.SUCCESS, Status.READ_FAIL]).2.2.1 (by decide)
  · exact ((claim6_worst_status_aggregation c1tree "ignore_load" c1backend none).2
      [Status.SUCCESS, Status.SUCCESS]).2.2.2 (by decide)

theorem walkAux_vSetting (inc : SNode → Bool) (ig iips : Bool) (stk : List Frame) :
    ∀ p s, Event.vSetting p s ∈ walkAux inc ig iips stk →
      inc (.setting s) = true ∧ s ∈ stackSettings stk := by
  induction stk using walkAux.induct inc ig iips with
  | case1 => intro p s h; simp [walkAux] at h
  | case2 p n i stk ih =>
      intro q s h
      rw [walkAux] at h
      rcases List.mem_append.mp h with h | h
      · by_cases hp : p = [] <;> simp [hp] at h
      · obtain ⟨h1, h2⟩ := ih q s h
        refine ⟨h1, ?_⟩
        simp only [stackSettings, List.map_cons, List.flatten_cons]
        exact List.mem_append_right _ h2
  | case3 p n i k s' rest stk hc ih =>
      intro q s h
      rw [walkAux, if_pos hc] at h
      simp only [stackSettings, List.map_cons, List.flatten_cons,
        settingsOfChildren, settingsOf]
      rcases List.mem_cons.mp h with h | h
      · simp only [Event.vSetting.injEq] at h
        obtain ⟨hq, hs⟩ := h
        subst hs
        exact ⟨hc, by simp⟩
      · obtain ⟨h1, h2⟩ := ih q s h
        simp only [stackSettings, List.map_cons, List.flatten_cons] at h2
        refine ⟨h1, ?_⟩
        rcases List.mem_append.mp h2 with h2 | h2
        · exact List.mem_append_left _ (by simp [h2])
        · exact List.mem_append_right _ h2
  | case4 p n i k s' rest stk hc ih =>
      intro q s h
      rw [walkAux, if_neg hc] at h
      obtain ⟨h1, h2⟩ := ih q s h
      simp only [stackSettings, List.map_cons, List.flatten_cons] at h2 ⊢
      simp only [settingsOfChildren, settingsOf]
      refine ⟨h1, ?_⟩
      rcases List.mem_append.mp h2 with h2 | h2
      · exact List.mem_append_left _ (by simp [h2])
      · exact List.mem_append_right _ h2
  | case5 p n i k gname gtags gcs rest stk hc ih =>
      intro q s h
      rw [walkAux, if_pos hc] at h
      have h2 : Event.vSetting q s ∈ walkAux inc ig iips
          (⟨p ++ [i], gname, 0, gcs⟩ :: ⟨p, n, i + 1, rest⟩ :: stk) := by
        rcases List.mem_append.mp h with h | h
        · by_cases hig : ig = true <;> simp [hig] at h
        · exact h
      obtain ⟨h1, h3⟩ := ih q s h2
      refine ⟨h1, ?_⟩
      simp only [stackSettings, List.map_cons, List.flatten_cons,
        settingsOfChildren, settingsOf] at h3 ⊢
      rcases List.mem_append.mp h3 with h3 | h3
      · exact List.mem_append_left _ (List.mem_append_left _ h3)
      · rcases List.mem_append.mp h3 with h3 | h3
        · exact List.mem_append_left _ (List.mem_append_right _ h3)
        · exact List.mem_append_right _ h3
  | case6 p n i k gname gtags gcs rest stk hc hc2 ih =>
      intro q s h
      rw [walkAux, if_neg hc, if_pos hc2] at h
      obtain ⟨h1, h3⟩ := ih q s h
      refine ⟨h1, ?_⟩
      simp only [stackSettings, List.map_cons, List.flatten_cons,
        settingsOfChildren, settingsOf] at h3 ⊢
      rcases List.mem_append.mp h3 with h3 | h3
      · exact List.mem_append_left _ (List.mem_append_left _ h3)
      · rcases List.mem_append.mp h3 with h3 | h3
        · exact List.mem_append_left _ (List.mem_append_right _ h3)
        · exact List.mem_append_right _ h3
  | case7 p n i k gname gtags gcs rest stk hc hc2 ih =>
      intro q s h
      rw [walkAux, if_neg hc, if_neg hc2] at h
      obtain ⟨h1, h3⟩ := ih q s h
      refine ⟨h1, ?_⟩
      simp only [stackSettings, List.map_cons, List.flatten_cons,
        settingsOfChildren, settingsOf] at h3 ⊢
      rcases List.mem_append.mp h3 with h3 | h3
      · exact List.mem_append_left _ (List.mem_append_right _ h3)
      · exact List.mem_append_right _ h3

theorem walkSettings_mem (inc : SNode → Bool) (t : SNode) :
    ∀ s ∈ walkSettings inc t, inc (.setting s) = true ∧ s ∈ settingsOf t := by
  intro s hs
  rw [walkSettings] at hs
  obtain ⟨e, he, hf⟩ := List.mem_filterMap.mp hs
  cases e with
  | vSetting p s' =>
      have hss : s' = s := by simpa using hf
      subst hss
      cases t with
      | setting s2 => simp [walkEvents] at he
      | group n tg cs =>
          rw [walkEvents] at he
          obtain ⟨h1, h2⟩ := walkAux_vSetting inc false false _ p s' he
          refine ⟨h1, ?_⟩
          simp only [stackSettings, List.map_cons, List.map_nil,
            List.flatten_cons, List.flatten_nil, List.append_nil] at h2
          simpa [settingsOf] using h2
  | vGroup p nm => simp at hf
  | endGroup p nm => simp at hf

theorem dictAppend_key_mem (d : List (List String × List Setting))
    (key : List String) (s : Setting) (kv : List String × List Setting)
    (h : kv ∈ dictAppend d key s) : kv.1 = key ∨ kv.1 ∈ d.map Prod.fst := by
  induction d with
  | nil =>
      simp [dictAppend] at h
      simp [h]
  | cons kv0 rest ih =>
      cases kv0 with
      | mk k v =>
          rw [dictAppend] at h
          by_cases hk : k = key
          · rw [if_pos hk] at h
            rcases List.mem_cons.mp h with h | h
            · subst h; exact Or.inl hk
            · refine Or.inr ?_
              simp only [List.map_cons]
              exact List.mem_cons_of_mem _ (List.mem_map_of_mem Prod.fst h)
          · rw [if_neg hk] at h
            rcases List.mem_cons.mp h with h | h
            · subst h
              refine Or.inr ?_
              simp
            · rcases ih h with h | h
              · exact Or.inl h
              · refine Or.inr ?_
                simp only [List.map_cons]
                exact List.mem_cons_of_mem _ h

theorem keys_dictAppend (d : List (List String × List Setting))
    (key : List String) (s : Setting) (q : List String) :
    q ∈ (dictAppend d key s).map Prod.fst ↔ q ∈ d.map Prod.fst ∨ q = key := by
  induction d with
  | nil => simp [dictAppend]
  | cons kv0 rest ih =>
      cases kv0 with
      | mk k v =>
          rw [dictAppend]
          by_cases hk : k = key
          · rw [if_pos hk]
            subst hk
            simp only [List.map_cons, List.mem_cons]
            tauto
          · rw [if_neg hk]
            simp only [List.map_cons, List.mem_cons, ih]
            tauto

theorem nodup_keys_dictAppend (d : List (List String × List Setting))
    (key : List String) (s : Setting) (h : (d.map Prod.fst).Nodup) :
    ((dictAppend d key s).map Prod.fst).Nodup := by
  induction d with
  | nil => simp [dictAppend]
  | cons kv0 rest ih =>
      cases kv0 with
      | mk k v =>
          rw [dictAppend]
          simp only [List.map_cons, List.nodup_cons] at h
          by_cases hk : k = key
          · rw [if_pos hk]
            simp only [List.map_cons, List.nodup_cons]
            exact h
          · rw [if_neg hk]
            simp only [List.map_cons, List.nodup_cons]
            refine ⟨?_, ih h.2⟩
            intro hmem
            rcases (keys_dictAppend rest key s k).mp hmem with hm | hm
            · exact h.1 hm
            · exact hk hm

theorem buildBuckets_keys_nodup (explicit : Option (List String))
    (ss : List Setting) (d : List (List String × List Setting))
    (h : (d.map Prod.fst).Nodup) :
    ((buildBuckets explicit ss d).map Prod.fst).Nodup := by
  induction ss generalizing d with
  | nil => exact h
  | cons s rest ih =>
      rw [buildBuckets]
      by_cases hk : (bucketKey explicit s).isEmpty
      · rw [if_pos hk]; exact ih d h
      · rw [if_neg hk]
        exact ih _ (nodup_keys_dictAppend d _ s h)

theorem dictAppend_mem_setting (d : List (List String × List Setting))
    (key : List String) (s : Setting) (kv : List String × List Setting)
    (x : Setting) (h : kv ∈ dictAppend d key s) (hx : x ∈ kv.2) :
    (∃ kv2 ∈ d, kv2.1 = kv.1 ∧ x ∈ kv2.2) ∨ (x = s ∧ kv.1 = key) := by
  induction d with
  | nil =>
      simp [dictAppend] at h
      subst h
      simp at hx
      exact Or.inr ⟨hx, rfl⟩
  | cons kv0 rest ih =>
      cases kv0 with
      | mk k v =>
          rw [dictAppend] at h
          by_cases hk : k = key
          · rw [if_pos hk] at h
            rcases List.mem_cons.mp h with h | h
            · subst h
              simp only at hx
              rcases List.mem_append.mp hx with hx | hx
              · exact Or.inl ⟨(k, v), by simp, rfl, hx⟩
              · simp at hx
                exact Or.inr ⟨hx, hk⟩
            · exact Or.inl ⟨kv, List.mem_cons_of_mem _ h, rfl, hx⟩
          · rw [if_neg hk] at h
            rcases List.mem_cons.mp h with h | h
            · subst h
              exact Or.inl ⟨(k, v), by simp, rfl, hx⟩
            · rcases ih h with ⟨kv2, hm, he, hx2⟩ | hr
              · exact Or.inl ⟨kv2, List.mem_cons_of_mem _ hm, he, hx2⟩
              · exact Or.inr hr

theorem buildBuckets_mem_setting (explicit : Option (List String)) :
    ∀ (ss : List Setting) (d : List (List String × List Setting))
      (kv : List String × List Setting) (x : Setting),
      kv ∈ buildBuckets explicit ss d → x ∈ kv.2 →
      (∃ kv2 ∈ d, kv2.1 = kv.1 ∧ x ∈ kv2.2) ∨
        (x ∈ ss ∧ kv.1 = bucketKey explicit x) := by
  intro ss
  induction ss with
  | nil =>
      intro d kv x h hx
      exact Or.inl ⟨kv, h, rfl, hx⟩
  | cons s rest ih =>
      intro d kv x h hx
      rw [buildBuckets] at h
      by_cases hk : (bucketKey explicit s).isEmpty
      · rw [if_pos hk] at h
        rcases ih d kv x h hx with hl | ⟨hm, he⟩
        · exact Or.inl hl
        · exact Or.inr ⟨List.mem_cons_of_mem _ hm, he⟩
      · rw [if_neg hk] at h
        rcases ih _ kv x h hx with ⟨kv2, hm, he, hx2⟩ | ⟨hm, he⟩
        · rcases dictAppend_mem_setting d _ s kv2 x hm hx2 with ⟨kv3, hm3, he3, hx3⟩ | ⟨hxs, hek⟩
          · exact Or.inl ⟨kv3, hm3, by rw [he3, he], hx3⟩
          · subst hxs
            exact Or.inr ⟨List.mem_cons_self _ _, by rw [← he, hek]⟩
        · exact Or.inr ⟨List.mem_cons_of_mem _ hm, he⟩

theorem buildBuckets_keys_ne (explicit : Option (List String)) :
    ∀ (ss : List Setting) (d : List (List String × List Setting)),
      (∀ kv ∈ d, kv.1 ≠ []) → ∀ kv ∈ buildBuckets explicit ss d, kv.1 ≠ [] := by
  intro ss
  induction ss with
  | nil => intro d hd kv h; exact hd kv h
  | cons s rest ih =>
      intro d hd kv h
      rw [buildBuckets] at h
      by_cases hk : (bucketKey explicit s).isEmpty
      · rw [if_pos hk] at h
        exact ih d hd kv h
      · rw [if_neg hk] at h
        refine ih _ ?_ kv h
        intro kv2 hm
        rcases dictAppend_key_mem d _ s kv2 hm with he | hm2
        · rw [he]
          intro hc
          rw [hc] at hk
          simp at hk
        · obtain ⟨kv3, hm3, he3⟩ := List.mem_map.mp hm2
          rw [← he3]
          exact hd kv3 hm3

theorem mem_dictAppend_self (d : List (List String × List Setting))
    (key : List String) (s : Setting) :
    ∃ v, (key, v) ∈ dictAppend d key s ∧ s ∈ v := by
  induction d with
  | nil => exact ⟨[s], by simp [dictAppend]⟩
  | cons kv0 rest ih =>
      cases kv0 with
      | mk k v =>
          rw [dictAppend]
          by_cases hk : k = key
          · subst hk
            exact ⟨v ++ [s], by simp⟩
          · rw [if_neg hk]
            obtain ⟨v2, hm, hs⟩ := ih
            exact ⟨v2, List.mem_cons_of_mem _ hm, hs⟩

theorem dictAppend_preserves (d : List (List String × List Setting))
    (key : List String) (s : Setting) (kv : List String × List Setting)
    (h : kv ∈ d) :
    ∃ v2, (kv.1, v2) ∈ dictAppend d key s ∧ ∀ x ∈ kv.2, x ∈ v2 := by
  induction d with
  | nil => simp at h
  | cons kv0 rest ih =>
      cases kv0 with
      | mk k v =>
          rw [dictAppend]
          by_cases hk : k = key
          · rw [if_pos hk]
            rcases List.mem_cons.mp h with h | h
            · subst h
              exact ⟨v ++ [s], by simp, fun x hx => List.mem_append_left _ hx⟩
            · exact ⟨kv.2, List.mem_cons_of_mem _ (by simpa using h), fun x hx => hx⟩
          · rw [if_neg hk]
            rcases List.mem_cons.mp h with h | h
            · subst h
              exact ⟨v, by simp, fun x hx => hx⟩
            · obtain ⟨v2, hm, hsub⟩ := ih h
              exact ⟨v2, List.mem_cons_of_mem _ hm, hsub⟩

theorem buildBuckets_preserves (explicit : Option (List String)) :
    ∀ (ss : List Setting) (d : List (List String × List Setting))
      (kv : List String × List Setting), kv ∈ d →
      ∃ v2, (kv.1, v2) ∈ buildBuckets explicit ss d ∧ ∀ x ∈ kv.2, x ∈ v2 := by
  intro ss
  induction ss with
  | nil => intro d kv h; exact ⟨kv.2, by simpa using h, fun x hx => hx⟩
  | cons s rest ih =>
      intro d kv h
      rw [buildBuckets]
      by_cases hk : (bucketKey explicit s).isEmpty
      · rw [if_pos hk]; exact ih d kv h
      · rw [if_neg hk]
        obtain ⟨v2, hm, hsub⟩ := dictAppend_preserves d _ s kv h
        obtain ⟨v3, hm3, hsub3⟩ := ih _ (kv.1, v2) hm
        exact ⟨v3, hm3, fun x hx => hsub3 x (hsub x hx)⟩

theorem buildBuckets_complete (explicit : Option (List String)) :
    ∀ (ss : List Setting) (d : List (List String × List Setting)) (x : Setting),
      x ∈ ss → (bucketKey explicit x).isEmpty = false →
      ∃ v, (bucketKey explicit x, v) ∈ buildBuckets explicit ss d ∧ x ∈ v := by
  intro ss
  induction ss with
  | nil => intro d x h; simp at h
  | cons s rest ih =>
      intro d x hmem hne
      rw [buildBuckets]
      rcases List.mem_cons.mp hmem with h | h
      · subst h
        rw [if_neg (by simp [hne])]
        obtain ⟨v, hm, hs⟩ := mem_dictAppend_self d (bucketKey explicit x) x
        obtain ⟨v2, hm2, hsub⟩ := buildBuckets_preserves explicit rest _ (bucketKey explicit x, v) hm
        exact ⟨v2, hm2, hsub x hs⟩
      · by_cases hk : (bucketKey explicit s).isEmpty
        · rw [if_pos hk]; exact ih d x h hne
        · rw [if_neg hk]; exact ih _ x h hne

theorem buildBuckets_all_dropped (explicit : Option (List String)) :
    ∀ (ss : List Setting) (d : List (List String × List Setting)),
      (∀ s ∈ ss, (bucketKey explicit s).isEmpty = true) →
      buildBuckets explicit ss d = d := by
  intro ss
  induction ss with
  | nil => intro d h; rfl
  | cons s rest ih =>
      intro d h
      rw [buildBuckets, if_pos (h s (List.mem_cons_self _ _))]
      exact ih d (fun x hx => h x (List.mem_cons_of_mem _ hx))

theorem keptSettings_mem (t : SNode) (tag : String) :
    ∀ s ∈ keptSettings t tag, tag ∉ s.tags ∧ s.setting_sources ≠ [] := by
  intro s hs
  rw [keptSettings] at hs
  obtain ⟨hw, hf⟩ := List.mem_filter.mp hs
  obtain ⟨hinc, _⟩ := walkSettings_mem _ t s hw
  constructor
  · rw [notIgnored] at hinc
    simp only [nodeTags] at hinc
    simpa using hinc
  · simpa using hf

/-- Claim C5: during a load or save the backend is invoked once per bucket
and the bucket keys are pairwise distinct (one call per distinct source
tuple); every setting inside any bucket was walked without the operation's
ignore tag and has non-empty `setting_sources`; each bucket's key is
exactly the key of its settings — the full `setting_sources` tuple when no
explicit sources are given, the order-preserving intersection with the
explicit sources otherwise — and is never empty (settings whose key is
empty are dropped without error); conversely every kept setting with a
non-empty key is present in the bucket of its key. -/
theorem claim5_bucket_partition (t : SNode) (tag : String)
    (backend : List Setting → List String → Status × String)
    (explicit : Option (List String)) :
    ((loadSaveBuckets t tag explicit).map Prod.fst).Nodup ∧
    bucketResults t tag backend explicit =
      (loadSaveBuckets t tag explicit).map (fun kv => backend kv.2 kv.1) ∧
    (∀ kv ∈ loadSaveBuckets t tag explicit, kv.1 ≠ [] ∧
      ∀ s ∈ kv.2, tag ∉ s.tags ∧ s.setting_sources ≠ [] ∧
        kv.1 = bucketKey explicit s) ∧
    (∀ s ∈ keptSettings t tag, bucketKey explicit s ≠ [] →
      ∃ v, (bucketKey explicit s, v) ∈ loadSaveBuckets t tag explicit ∧
        s ∈ v) := by
  refine ⟨?_, rfl, ?_, ?_⟩
  · exact buildBuckets_keys_nodup explicit _ [] (by simp)
  · intro kv hkv
    refine ⟨buildBuckets_keys_ne explicit _ [] (by simp) kv hkv, ?_⟩
    intro s hs
    rcases buildBuckets_mem_setting explicit _ [] kv s hkv hs with
      ⟨kv2, hm, _, _⟩ | ⟨hm, he⟩
    · simp at hm
    · have h2 := keptSettings_mem t tag s hm
      exact ⟨h2.1, h2.2, he⟩
  · intro s hs hk
    refine buildBuckets_complete explicit _ [] s hs ?_
    cases hkk : bucketKey explicit s with
    | nil => exact absurd hkk hk
    | cons a l => rfl

/-- Witness for claim C5: in the concrete two-setting save the setting
with sources `(A)` ends up in the bucket keyed `(A)`. -/
theorem claim5_witness :
    ∃ v, (["A"], v) ∈ loadSaveBuckets c5tree "ignore_save" none ∧
      (⟨"s2", [], ["A"]⟩ : Setting) ∈ v :=
  (claim5_bucket_partition c5tree "ignore_save" c1backend none).2.2.2
    ⟨"s2", [], ["A"]⟩
    (by simp [keptSettings, walkSettings, walkEvents, walkAux, notIgnored,
      nodeTags, c5tree])
    (by simp [bucketKey])

/-- Claim C10: when every setting of the group is excluded from
persistence — it carries the operation's ignore tag, has empty
`setting_sources`, or its bucket key (intersection with the explicit
sources) is empty — the bucket dictionary stays empty, so no backend
operation is invoked, and the load or save returns
`(SUCCESS, "")`. -/
theorem claim10_vacuous_load_save (t : SNode) (tag : String)
    (backend : List Setting → List String → Status × String)
    (explicit : Option (List String))
    (h : ∀ s ∈ settingsOf t, tag ∈ s.tags ∨ s.setting_sources = [] ∨
      bucketKey explicit s = []) :
    loadSaveBuckets t tag explicit = [] ∧
    loadSave t tag backend explicit = (Status.SUCCESS, "") := by
  have hb : loadSaveBuckets t tag explicit = [] := by
    rw [loadSaveBuckets]
    apply buildBuckets_all_dropped
    intro s hs
    rw [keptSettings] at hs
    obtain ⟨hw, hf⟩ := List.mem_filter.mp hs
    obtain ⟨hinc, hmem⟩ := walkSettings_mem _ t s hw
    rcases h s hmem with hc | hc | hc
    · exfalso
      rw [notIgnored] at hinc
      simp only [nodeTags] at hinc
      exact (by simpa using hinc : tag ∉ s.tags) hc
    · exfalso
      rw [hc] at hf
      simp at hf
    · rw [hc]; rfl
  refine ⟨hb, ?_⟩
  rw [loadSave, bucketResults, hb]
  simp [buildStatusMessages, getWorstStatus, dictFind, List.find?]

/-- Witness for claim C10 at the concrete tree. -/
theorem claim10_witness :
    loadSaveBuckets c10tree "ignore_load" none = [] ∧
    loadSave c10tree "ignore_load" c1backend none = (Status.SUCCESS, "") :=
  claim10_vacuous_load_save c10tree "ignore_load" c1backend none
    (by
      intro s hs
      simp [c10tree, settingsOf, settingsOfChildren] at hs
      rcases hs with h | h <;> subst h <;> simp)

theorem collectGuiFailures_fst (upd : Setting → Option String)
    (l : List Setting) :
    (collectGuiFailures upd l).map Prod.fst =
      l.filter (fun s => (upd s).isSome) := by
  induction l with
  | nil => rfl
  | cons s rest ih =>
      rw [collectGuiFailures]
      cases hu : upd s with
      | some m => simp [List.filter_cons, hu, ih]
      | none => simp [List.filter_cons, hu, ih]

theorem collectGuiFailures_snd (upd : Setting → Option String)
    (l : List Setting) :
    (collectGuiFailures upd l).map Prod.snd =
      ((collectGuiFailures upd l).map Prod.fst).map
        (fun s => (upd s).getD "") := by
  induction l with
  | nil => rfl
  | cons s rest ih =>
      rw [collectGuiFailures]
      cases hu : upd s with
      | some m => simp [hu, ih]
      | none => simp [hu, ih]

theorem collectGuiFailures_nil_iff (upd : Setting → Option String)
    (l : List Setting) :
    collectGuiFailures upd l = [] ↔ ∀ s ∈ l, upd s = none := by
  induction l with
  | nil => simp [collectGuiFailures]
  | cons s rest ih =>
      rw [collectGuiFailures]
      cases hu : upd s with
      | some m =>
          simp only [List.mem_cons]
          constructor
          · intro h; exact absurd h (by simp)
          · intro h
            exact absurd (h s (Or.inl rfl)) (by simp [hu])
      | none =>
          rw [ih]
          constructor
          · intro h s2 hs2
            rcases List.mem_cons.mp hs2 with h2 | h2
            · subst h2; exact hu
            · exact h s2 h2
          · intro h s2 hs2
            exact h s2 (List.mem_cons_of_mem _ hs2)

theorem joinLines_contains (ms : List String) :
    ∀ m ∈ ms, ∃ pre post, joinLines ms = pre ++ m ++ post := by
  induction ms with
  | nil => intro m hm; simp at hm
  | cons m0 rest ih =>
      intro m hm
      cases rest with
      | nil =>
          simp only [List.mem_singleton] at hm
          subst hm
          refine ⟨"", "", ?_⟩
          rw [joinLines]
          simp
      | cons m1 rest2 =>
          rw [joinLines]
          rcases List.mem_cons.mp hm with h | h
          · subst h
            exact ⟨"", "\n" ++ joinLines (m1 :: rest2), by
              simp [String.append_assoc]⟩
          · obtain ⟨pre, post, hp⟩ := ih m h
            refine ⟨m0 ++ "\n" ++ pre, post, ?_⟩
            rw [hp]
            simp [String.append_assoc]

/-- Claim C7: GUI value application walks every non-ignored setting even
after failures — the composite error's settings list is exactly the list
of failing settings of the whole walk, in walk order — and raises exactly
one error, after the walk, whose messages are the failing settings'
messages, whose message is their join and therefore contains every one of
them; when no setting fails it raises nothing. -/
theorem claim7_gui_aggregate (t : SNode) (upd : Setting → Option String) :
    (applyGuiValuesToSettings t upd = none ↔
      ∀ s ∈ walkSettings (notIgnored "ignore_apply_gui_value_to_setting") t,
        upd s = none) ∧
    (∀ err, applyGuiValuesToSettings t upd = some err →
      err.settings =
        (walkSettings (notIgnored "ignore_apply_gui_value_to_setting") t).filter
          (fun s => (upd s).isSome) ∧
      err.messages = err.settings.map (fun s => (upd s).getD "") ∧
      err.message = joinLines err.messages ∧
      (∀ m ∈ err.messages, ∃ pre post, err.message = pre ++ m ++ post)) := by
  constructor
  · rw [applyGuiValuesToSettings]
    cases hf : collectGuiFailures upd
        (walkSettings (notIgnored "ignore_apply_gui_value_to_setting") t) with
    | nil =>
        simp only []
        constructor
        · intro _
          exact (collectGuiFailures_nil_iff upd _).mp hf
        · intro _
          exact trivial
    | cons p rest =>
        cases p with
        | mk s0 m0 =>
            simp only []
            constructor
            · intro h
              exact absurd h (by simp)
            · intro h
              have h2 := (collectGuiFailures_nil_iff upd _).mpr h
              rw [hf] at h2
              cases h2
  · intro err herr
    rw [applyGuiValuesToSettings] at herr
    have hfst := collectGuiFailures_fst upd
      (walkSettings (notIgnored "ignore_apply_gui_value_to_setting") t)
    have hsnd := collectGuiFailures_snd upd
      (walkSettings (notIgnored "ignore_apply_gui_value_to_setting") t)
    cases hf : collectGuiFailures upd
        (walkSettings (notIgnored "ignore_apply_gui_value_to_setting") t) with
    | nil =>
        rw [hf] at herr
        cases herr
    | cons p rest =>
        rw [hf] at herr hfst hsnd
        cases p with
        | mk s0 m0 =>
            have he : (⟨joinLines (((s0, m0) :: rest).map Prod.snd), s0,
                ((s0, m0) :: rest).map Prod.snd,
                ((s0, m0) :: rest).map Prod.fst⟩ : AggValueErr) = err := by
              injection herr
            subst he
            refine ⟨hfst, ?_, rfl, ?_⟩
            · simp only []
              rw [hsnd]
            · intro m hm
              exact joinLines_contains _ m hm

/-- Witness for claim C7: with fields `a` and `b` both invalid, one error
is raised whose settings list has exactly the two offending settings in
walk order and whose message joins both underlying messages. -/
theorem claim7_witness :
    (⟨"bad a\nbad b", ⟨"a", [], []⟩, ["bad a", "bad b"],
      [⟨"a", [], []⟩, ⟨"b", [], []⟩]⟩ : AggValueErr).settings =
      (walkSettings (notIgnored "ignore_apply_gui_value_to_setting") c7tree).filter
        (fun s => (c7upd s).isSome) ∧
    (⟨"bad a\nbad b", ⟨"a", [], []⟩, ["bad a", "bad b"],
      [⟨"a", [], []⟩, ⟨"b", [], []⟩]⟩ : AggValueErr).messages =
      (⟨"bad a\nbad b", ⟨"a", [], []⟩, ["bad a", "bad b"],
        [⟨"a", [], []⟩, ⟨"b", [], []⟩]⟩ : AggValueErr).settings.map
          (fun s => (c7upd s).getD "") ∧
    (⟨"bad a\nbad b", ⟨"a", [], []⟩, ["bad a", "bad b"],
      [⟨"a", [], []⟩, ⟨"b", [], []⟩]⟩ : AggValueErr).message =
      joinLines (⟨"bad a\nbad b", ⟨"a", [], []⟩, ["bad a", "bad b"],
        [⟨"a", [], []⟩, ⟨"b", [], []⟩]⟩ : AggValueErr).messages ∧
    (∀ m ∈ (⟨"bad a\nbad b", ⟨"a", [], []⟩, ["bad a", "bad b"],
        [⟨"a", [], []⟩, ⟨"b", [], []⟩]⟩ : AggValueErr).messages,
      ∃ pre post,
        (⟨"bad a\nbad b", ⟨"a", [], []⟩, ["bad a", "bad b"],
          [⟨"a", [], []⟩, ⟨"b", [], []⟩]⟩ : AggValueErr).message =
          pre ++ m ++ post) :=
  (claim7_gui_aggregate c7tree c7upd).2
    ⟨"bad a\nbad b", ⟨"a", [], []⟩, ["bad a", "bad b"],
      [⟨"a", [], []⟩, ⟨"b", [], []⟩]⟩
    (by simp [applyGuiValuesToSettings, walkSettings, walkEvents, walkAux,
      notIgnored, nodeTags, c7tree, c7upd, collectGuiFailures, joinLines])

theorem cursorAt_cons (n : String) (tg : List String) (c : Option Nat)
    (cs : List (String × CNode)) (j : Nat) (q : List Nat) :
    cursorAt (.group n tg c cs) (j :: q) =
      match cs.get? j with
      | some kc => cursorAt kc.2 q
      | none => none := by
  rw [cursorAt, getAtC]
  cases cs.get? j with
  | none => rfl
  | some kc => rfl

mutual

theorem eraseC_setCursorAt (t : CNode) (p : List Nat) (v : Option Nat) :
    eraseC (setCursorAt t p v) = eraseC t := by
  cases t with
  | setting s => cases p <;> rfl
  | group n tg c cs =>
      cases p with
      | nil => rfl
      | cons i q =>
          rw [setCursorAt, eraseC, eraseC, eraseChildren_setChildCursor cs i q v]

theorem eraseChildren_setChildCursor (cs : List (String × CNode)) (i : Nat)
    (q : List Nat) (v : Option Nat) :
    eraseChildren (setChildCursor cs i q v) = eraseChildren cs := by
  cases cs with
  | nil => rfl
  | cons kc rest =>
      cases kc with
      | mk k c =>
          cases i with
          | zero =>
              rw [setChildCursor, eraseChildren, eraseChildren,
                eraseC_setCursorAt c q v]
          | succ i2 =>
              rw [setChildCursor, eraseChildren, eraseChildren,
                eraseChildren_setChildCursor rest i2 q v]

end

theorem get_setChildCursor (cs : List (String × CNode)) (i j : Nat)
    (q : List Nat) (v : Option Nat) :
    (setChildCursor cs i q v).get? j =
      if j = i then (cs.get? i).map (fun kc => (kc.1, setCursorAt kc.2 q v))
      else cs.get? j := by
  induction cs generalizing i j with
  | nil =>
      rw [setChildCursor]
      by_cases h : j = i <;> simp [h]
  | cons kc rest ih =>
      cases kc with
      | mk k c =>
          cases i with
          | zero =>
              rw [setChildCursor]
              cases j with
              | zero => simp
              | succ j2 => simp
          | succ i2 =>
              rw [setChildCursor]
              cases j with
              | zero => simp
              | succ j2 =>
                  simp only [List.get?_cons_succ]
                  rw [ih i2 j2]
                  by_cases h : j2 = i2
                  · simp [h]
                  · simp [h, fun hc => h (Nat.succ_injective hc)]

theorem cursorAt_setCursorAt_ne :
    ∀ (p : List Nat) (t : CNode) (q : List Nat) (v : Option Nat), q ≠ p →
      cursorAt (setCursorAt t p v) q = cursorAt t q := by
  intro p
  induction p with
  | nil =>
      intro t q v hq
      cases t with
      | setting s => rfl
      | group n tg c cs =>
          rw [setCursorAt]
          cases q with
          | nil => exact absurd rfl hq
          | cons j q2 => rw [cursorAt_cons, cursorAt_cons]
  | cons i p2 ih =>
      intro t q v hq
      cases t with
      | setting s => cases q <;> rfl
      | group n tg c cs =>
          rw [setCursorAt]
          cases q with
          | nil => rfl
          | cons j q2 =>
              rw [cursorAt_cons, cursorAt_cons, get_setChildCursor]
              by_cases hj : j = i
              · subst hj
                rw [if_pos rfl]
                cases hg : cs.get? j with
                | none => rfl
                | some kc =>
                    simp only [Option.map_some]
                    have hq2 : q2 ≠ p2 := fun hc => hq (by rw [hc])
                    exact ih kc.2 q2 v hq2
              · rw [if_neg hj]

theorem cursorAt_setCursorAt_none :
    ∀ (p : List Nat) (t : CNode), cursorAt (setCursorAt t p none) p = none := by
  intro p
  induction p with
  | nil =>
      intro t
      cases t with
      | setting s => rfl
      | group n tg c cs => rfl
  | cons i p2 ih =>
      intro t
      cases t with
      | setting s => rfl
      | group n tg c cs =>
          rw [setCursorAt, cursorAt_cons, get_setChildCursor, if_pos rfl]
          cases hg : cs.get? i with
          | none => rfl
          | some kc => exact ih kc.2

theorem cursorFreeChildren_get (cs : List (String × CNode)) :
    ∀ (i : Nat) (kc : String × CNode), cursorFreeChildren cs = true →
      cs.get? i = some kc → cursorFree kc.2 = true := by
  induction cs with
  | nil => intro i kc _ hg; simp at hg
  | cons kc0 rest ih =>
      intro i kc h hg
      cases kc0 with
      | mk k c =>
          rw [cursorFreeChildren] at h
          rw [Bool.and_eq_true] at h
          cases i with
          | zero =>
              simp only [List.get?_cons_zero] at hg
              injection hg with hg
              rw [← hg]
              exact h.1
          | succ i2 =>
              simp only [List.get?_cons_succ] at hg
              exact ih i2 kc h.2 hg

theorem cursorFree_allNone :
    ∀ (p : List Nat) (t : CNode), cursorFree t = true → cursorAt t p = none := by
  intro p
  induction p with
  | nil =>
      intro t h
      cases t with
      | setting s => rfl
      | group n tg c cs =>
          rw [cursorFree, Bool.and_eq_true] at h
          have := h.1
          rw [cursorAt, getAtC]
          simpa using this
  | cons i q ih =>
      intro t h
      cases t with
      | setting s => rfl
      | group n tg c cs =>
          rw [cursorFree, Bool.and_eq_true] at h
          rw [cursorAt_cons]
          cases hg : cs.get? i with
          | none => rfl
          | some kc => exact ih kc.2 (cursorFreeChildren_get cs i kc h.2 hg)

mutual

theorem allNone_cursorFree (t : CNode)
    (h : ∀ p, cursorAt t p = none) : cursorFree t = true := by
  cases t with
  | setting s => rfl
  | group n tg c cs =>
      rw [cursorFree, Bool.and_eq_true]
      constructor
      · have h0 := h []
        have hc : c = none := by
          rw [cursorAt, getAtC] at h0
          exact h0
        simp [hc]
      · apply allNone_cursorFreeChildren
        intro i q
        have hi := h (i :: q)
        rwa [cursorAt_cons] at hi

theorem allNone_cursorFreeChildren (cs : List (String × CNode))
    (h : ∀ (i : Nat) (q : List Nat),
      (match cs.get? i with
       | some kc => cursorAt kc.2 q
       | none => none) = none) : cursorFreeChildren cs = true := by
  cases cs with
  | nil => rfl
  | cons kc0 rest =>
      cases kc0 with
      | mk k c =>
          rw [cursorFreeChildren, Bool.and_eq_true]
          constructor
          · exact allNone_cursorFree c (fun q => by
              have := h 0 q
              simpa using this)
          · exact allNone_cursorFreeChildren rest (fun i q => by
              have := h (i + 1) q
              simpa using this)

end

mutual

theorem decorate_eraseC (t : CNode) (h : cursorFree t = true) :
    decorate (eraseC t) = t := by
  cases t with
  | setting s => rfl
  | group n tg c cs =>
      rw [cursorFree, Bool.and_eq_true] at h
      have hc : c = none := by
        have := h.1
        simpa using this
      subst hc
      rw [eraseC, decorate, decorateChildren_eraseChildren cs h.2]

theorem decorateChildren_eraseChildren (cs : List (String × CNode))
    (h : cursorFreeChildren cs = true) :
    decorateChildren (eraseChildren cs) = cs := by
  cases cs with
  | nil => rfl
  | cons kc0 rest =>
      cases kc0 with
      | mk k c =>
          rw [cursorFreeChildren, Bool.and_eq_true] at h
          rw [eraseChildren, decorateChildren, decorate_eraseC c h.1,
            decorateChildren_eraseChildren rest h.2]

end

theorem walkStep_none_iff (inc : CNode → Bool) (ig iips : Bool) (t : CNode)
    (st : List (List Nat)) :
    walkStep inc ig iips t st = none ↔ st = [] := by
  cases st with
  | nil => simp [walkStep]
  | cons p rest =>
      simp only [walkStep]
      constructor
      · intro h
        exfalso
        cases hg : getAtC t p with
        | none => rw [hg] at h; exact absurd h (by simp)
        | some nd =>
            cases nd with
            | setting s => rw [hg] at h; exact absurd h (by simp)
            | group n tg cur cs =>
                rw [hg] at h
                simp only [] at h
                by_cases hlt : cur.getD 0 < cs.length
                · rw [dif_pos hlt] at h
                  cases hc : (cs.get ⟨cur.getD 0, hlt⟩).2 with
                  | setting s =>
                      rw [hc] at h
                      by_cases hi : inc (.setting s) <;> simp [hi] at h
                  | group gn gtg gcur gcs =>
                      rw [hc] at h
                      by_cases hi : inc (.group gn gtg gcur gcs)
                      · simp [hi] at h
                      · by_cases hp : iips = true <;> simp [hi, hp] at h
                · rw [dif_neg hlt] at h
                  exact absurd h (by simp)
      · intro h
        cases h

theorem DirtySub_advance (t : CNode) (p : List Nat) (rest st2 : List (List Nat))
    (k : Nat) (hd : DirtySub t (p :: rest)) (hsub : ∀ x ∈ p :: rest, x ∈ st2) :
    DirtySub (setCursorAt t p (some k)) st2 := by
  intro q hq
  by_cases hqp : q = p
  · subst hqp
    exact hsub q (List.mem_cons_self _ _)
  · rw [cursorAt_setCursorAt_ne p t q (some k) hqp] at hq
    exact hsub q (hd q hq)

theorem walkStep_preserves (inc : CNode → Bool) (ig iips : Bool) (t : CNode)
    (p : List Nat) (rest : List (List Nat)) (evs : List Event) (t2 : CNode)
    (st2 : List (List Nat))
    (h : walkStep inc ig iips t (p :: rest) = some (evs, t2, st2))
    (hd : DirtySub t (p :: rest)) :
    eraseC t2 = eraseC t ∧ DirtySub t2 st2 := by
  rw [walkStep] at h
  cases hg : getAtC t p with
  | none =>
      rw [hg] at h
      simp only [Option.some.injEq, Prod.mk.injEq] at h
      obtain ⟨-, ht, hs⟩ := h
      subst ht; subst hs
      refine ⟨rfl, ?_⟩
      intro q hq
      have hqp : q ≠ p := by
        intro he
        subst he
        rw [cursorAt, hg] at hq
        exact hq rfl
      have := hd q hq
      rcases List.mem_cons.mp this with he | he
      · exact absurd he hqp
      · exact he
  | some nd =>
      cases nd with
      | setting s0 =>
          rw [hg] at h
          simp only [Option.some.injEq, Prod.mk.injEq] at h
          obtain ⟨-, ht, hs⟩ := h
          subst ht; subst hs
          refine ⟨rfl, ?_⟩
          intro q hq
          have hqp : q ≠ p := by
            intro he
            subst he
            rw [cursorAt, hg] at hq
            exact hq rfl
          have := hd q hq
          rcases List.mem_cons.mp this with he | he
          · exact absurd he hqp
          · exact he
      | group n tg cur cs =>
          rw [hg] at h
          simp only [] at h
          by_cases hlt : cur.getD 0 < cs.length
          · rw [dif_pos hlt] at h
            cases hc : (cs.get ⟨cur.getD 0, hlt⟩).2 with
            | setting s =>
                rw [hc] at h
                simp only [] at h
                have hmain : t2 = setCursorAt t p (some (cur.getD 0 + 1)) ∧
                    st2 = p :: rest := by
                  by_cases hi : inc (.setting s)
                  · rw [if_pos hi] at h
                    simp only [Option.some.injEq, Prod.mk.injEq] at h
                    exact ⟨h.2.1.symm, h.2.2.symm⟩
                  · rw [if_neg hi] at h
                    simp only [Option.some.injEq, Prod.mk.injEq] at h
                    exact ⟨h.2.1.symm, h.2.2.symm⟩
                obtain ⟨ht, hs⟩ := hmain
                subst ht; subst hs
                exact ⟨eraseC_setCursorAt t p _,
                  DirtySub_advance t p rest _ _ hd (fun x hx => hx)⟩
            | group gn gtg gcur gcs =>
                rw [hc] at h
                simp only [] at h
                have hmain : t2 = setCursorAt t p (some (cur.getD 0 + 1)) ∧
                    (st2 = (p ++ [cur.getD 0]) :: p :: rest ∨ st2 = p :: rest) := by
                  by_cases hi : inc (.group gn gtg gcur gcs)
                  · rw [if_pos hi] at h
                    simp only [Option.some.injEq, Prod.mk.injEq] at h
                    exact ⟨h.2.1.symm, Or.inl h.2.2.symm⟩
                  · rw [if_neg hi] at h
                    by_cases hp2 : iips = true
                    · rw [if_pos hp2] at h
                      simp only [Option.some.injEq, Prod.mk.injEq] at h
                      exact ⟨h.2.1.symm, Or.inl h.2.2.symm⟩
                    · rw [if_neg hp2] at h
                      simp only [Option.some.injEq, Prod.mk.injEq] at h
                      exact ⟨h.2.1.symm, Or.inr h.2.2.symm⟩
                obtain ⟨ht, hs⟩ := hmain
                subst ht
                refine ⟨eraseC_setCursorAt t p _, ?_⟩
                rcases hs with hs | hs <;> subst hs
                · exact DirtySub_advance t p rest _ _ hd
                    (fun x hx => List.mem_cons_of_mem _ hx)
                · exact DirtySub_advance t p rest _ _ hd (fun x hx => hx)
          · rw [dif_neg hlt] at h
            simp only [Option.some.injEq, Prod.mk.injEq] at h
            obtain ⟨-, ht, hs⟩ := h
            subst ht; subst hs
            refine ⟨eraseC_setCursorAt t p none, ?_⟩
            intro q hq
            have hqp : q ≠ p := by
              intro he
              rw [he] at hq
              rw [cursorAt_setCursorAt_none p t] at hq
              exact hq rfl
            rw [cursorAt_setCursorAt_ne p t q none hqp] at hq
            have := hd q hq
            rcases List.mem_cons.mp this with he | he
            · exact absurd he hqp
            · exact he

theorem runWalk_clean (inc : CNode → Bool) (ig iips : Bool) :
    ∀ (fuel : Nat) (t : CNode) (st : List (List Nat)) (evs : List Event)
      (tf : CNode),
      runWalk inc ig iips fuel t st = some (evs, tf) → DirtySub t st →
      eraseC tf = eraseC t ∧ ∀ q, cursorAt tf q = none := by
  intro fuel
  induction fuel with
  | zero =>
      intro t st evs tf h hd
      rw [runWalk] at h
      by_cases hst : st.isEmpty
      · rw [if_pos hst] at h
        simp only [Option.some.injEq, Prod.mk.injEq] at h
        obtain ⟨-, ht⟩ := h
        subst ht
        refine ⟨rfl, ?_⟩
        intro q
        cases hcq : cursorAt t q with
        | none => rfl
        | some k =>
            have := hd q (by simp [hcq])
            rw [List.isEmpty_iff] at hst
            subst hst
            simp at this
      · rw [if_neg hst] at h
        cases h
  | succ fuel ih =>
      intro t st evs tf h hd
      rw [runWalk] at h
      cases hw : walkStep inc ig iips t st with
      | none =>
          rw [hw] at h
          simp only [Option.some.injEq, Prod.mk.injEq] at h
          obtain ⟨-, ht⟩ := h
          subst ht
          have hst : st = [] := (walkStep_none_iff inc ig iips t st).mp hw
          subst hst
          refine ⟨rfl, ?_⟩
          intro q
          cases hcq : cursorAt t q with
          | none => rfl
          | some k =>
              have := hd q (by simp [hcq])
              simp at this
      | some r =>
          rw [hw] at h
          obtain ⟨evs1, t2, st2⟩ := r
          simp only [] at h
          cases st with
          | nil => rw [walkStep] at hw; cases hw
          | cons p rest =>
              obtain ⟨he, hsub⟩ := walkStep_preserves inc ig iips t p rest
                evs1 t2 st2 hw hd
              cases hr : runWalk inc ig iips fuel t2 st2 with
              | none => rw [hr] at h; cases h
              | some r2 =>
                  rw [hr] at h
                  obtain ⟨evs2, tf2⟩ := r2
                  simp only [Option.some.injEq, Prod.mk.injEq] at h
                  obtain ⟨-, ht⟩ := h
                  subst ht
                  obtain ⟨he2, hclean⟩ := ih t2 st2 evs2 tf2 hr hsub
                  exact ⟨he2.trans he, hclean⟩

/-- Claim C9: a walk run to exhaustion pops every opened group through
`StopIteration`, which resets its `_settings_iterator` to `None`; hence a
walk of a tree in fresh iterator state ends in the identical tree state
and a second exhaustive walk with the same arguments yields the identical
event sequence.  The guarantee fails for an abandoned walk: on the
concrete two-setting group, abandoning after one pull leaves the root
iterator parked (`c9dirty`), and the next walk resumes there, yielding
only the second setting instead of the full sequence. -/
theorem claim9_walk_restart_cursors :
    (∀ (inc : CNode → Bool) (ig iips : Bool) (fuel : Nat) (t : CNode)
        (evs : List Event) (tf : CNode),
        cursorFree t = true →
        runWalk inc ig iips fuel t [[]] = some (evs, tf) →
        tf = t ∧ runWalk inc ig iips fuel tf [[]] = some (evs, tf)) ∧
    (runSteps (fun _ => true) false false 1 c9tree [[]] =
        ([Event.vSetting [0] ⟨"a", [], []⟩], c9dirty, [[]]) ∧
      runWalk (fun _ => true) false false 10 c9tree [[]] =
        some ([Event.vSetting [0] ⟨"a", [], []⟩,
          Event.vSetting [1] ⟨"b", [], []⟩], c9tree) ∧
      runWalk (fun _ => true) false false 10 c9dirty [[]] =
        some ([Event.vSetting [1] ⟨"b", [], []⟩], c9tree) ∧
      ([Event.vSetting [1] ⟨"b", [], []⟩] : List Event) ≠
        [Event.vSetting [0] ⟨"a", [], []⟩,
          Event.vSetting [1] ⟨"b", [], []⟩]) := by
  constructor
  · intro inc ig iips fuel t evs tf hcf hrun
    have hd : DirtySub t [[]] := fun q hq =>
      absurd (cursorFree_allNone q t hcf) hq
    obtain ⟨he, hclean⟩ := runWalk_clean inc ig iips fuel t [[]] evs tf hrun hd
    have hft : tf = t := by
      have h1 : cursorFree tf = true := allNone_cursorFree tf hclean
      calc tf = decorate (eraseC tf) := (decorate_eraseC tf h1).symm
        _ = decorate (eraseC t) := by rw [he]
        _ = t := decorate_eraseC t hcf
    refine ⟨hft, ?_⟩
    rw [hft]
    rw [hft] at hrun
    exact hrun
  · refine ⟨rfl, rfl, rfl, by decide⟩

/-- Witness for claim C9: the restart guarantee applied to the concrete
fresh two-setting group, with the full event sequence. -/
theorem claim9_witness :
    c9tree = c9tree ∧
    runWalk (fun _ => true) false false 10 c9tree [[]] =
      some ([Event.vSetting [0] ⟨"a", [], []⟩,
        Event.vSetting [1] ⟨"b", [], []⟩], c9tree) :=
  claim9_walk_restart_cursors.1 (fun _ => true) false false 10 c9tree
    [Event.vSetting [0] ⟨"a", [], []⟩, Event.vSetting [1] ⟨"b", [], []⟩]
    c9tree (by rfl) (by rfl)

